import Mathlib

/-!
Verification development for the deck reconciliation engine of mtg-deck-diff
(src/App.jsx). The JavaScript source is shallowly embedded: strings are
modelled through their character lists, JavaScript Map and plain objects are
modelled as association lists with in-place update semantics, and the regular
expressions of the source are modelled by equivalent character-list scanners
(leftmost match, greedy runs, anchored suffixes), as documented next to each
definition. Whitespace is modelled as the common ASCII whitespace characters,
lowercasing as Char.toLower, and the locale-aware comparator used for sorting
is modelled as code-point lexicographic order. Network calls in the resolver
are modelled by an explicit transport record, and the resolver logs each call
it issues.
-/

namespace MDD

/-- Whitespace test modelling the JavaScript regex class backslash-s and the
trimming done by String.prototype.trim, restricted to ASCII whitespace. -/
def isWS (c : Char) : Bool :=
  c = ' ' || c = '\t' || c = '\n' || c = '\r' || c = '\x0b' || c = '\x0c'

/-- Decimal digit test, modelling the regex class backslash-d. -/
def isDigitC (c : Char) : Bool :=
  '0'.toNat ≤ c.toNat && c.toNat ≤ '9'.toNat

/-- Word character test, modelling the regex class backslash-w, used for the
word boundary after the sideboard and header keywords. -/
def isWordChar (c : Char) : Bool :=
  ('a'.toNat ≤ c.toNat && c.toNat ≤ 'z'.toNat) ||
  ('A'.toNat ≤ c.toNat && c.toNat ≤ 'Z'.toNat) ||
  isDigitC c || c = '_'

/-- Lowercasing of a string, modelling String.prototype.toLowerCase. -/
def lowerStr (s : String) : String :=
  String.mk (s.data.map Char.toLower)

/-- Drop leading whitespace. -/
def trimL (l : List Char) : List Char := l.dropWhile isWS

/-- Drop trailing whitespace. -/
def trimR (l : List Char) : List Char := ((l.reverse).dropWhile isWS).reverse

/-- Both-ended trim, modelling String.prototype.trim. -/
def trimBoth (l : List Char) : List Char := trimR (trimL l)

/-- String-level trim used where the source calls trim on a string value. -/
def jsTrim (s : String) : String := String.mk (trimBoth s.data)

/-- Emit a pending run of slashes: runs of three or more collapse to exactly
two, shorter runs are kept, modelling one global replacement of the regex
slash-repeated-3-or-more by two slashes. -/
def emitSlashes (n : Nat) : List Char :=
  if 3 ≤ n then ['/', '/'] else List.replicate n '/'

/-- State machine for the global replacement of runs of three or more slashes
by two slashes; pend counts the slashes of the current maximal run. -/
def csGo (pend : Nat) : List Char → List Char
  | [] => emitSlashes pend
  | c :: rest =>
    if c = '/' then csGo (pend + 1) rest
    else emitSlashes pend ++ c :: csGo 0 rest

/-- Collapse runs of three or more slashes down to two, modelling the first
replacement inside normalizeName. -/
def collapseSlashes (l : List Char) : List Char := csGo 0 l

/-- State machine for the global replacement of optional whitespace, two
slashes, optional whitespace by space-slash-slash-space. The flag skip is true
directly after a match, where the trailing whitespace run was consumed by the
match; pend holds a whitespace run that may yet become the leading part of a
match. -/
def ssGo (skip : Bool) (pend : List Char) : List Char → List Char
  | [] => pend
  | c :: rest =>
    match rest with
    | c2 :: rest2 =>
      if c = '/' ∧ c2 = '/' then ' ' :: '/' :: '/' :: ' ' :: ssGo true [] rest2
      else if isWS c then
        if skip then ssGo true [] (c2 :: rest2)
        else ssGo false (pend ++ [c]) (c2 :: rest2)
      else pend ++ c :: ssGo false [] (c2 :: rest2)
    | [] =>
      if isWS c then
        if skip then ssGo true [] [] else ssGo false (pend ++ [c]) []
      else pend ++ c :: ssGo false [] []

/-- Put exactly one space on each side of each double-slash separator, the
surrounding whitespace being absorbed, modelling the second replacement inside
normalizeName. -/
def spaceSlashes (l : List Char) : List Char := ssGo false [] l

/-- Emit a pending whitespace run: a run of two or more becomes one space, a
single whitespace character is kept as it is. -/
def emitWS (pend : List Char) : List Char :=
  match pend with
  | [] => []
  | [c] => [c]
  | _ => [' ']

/-- State machine for the global replacement of whitespace runs of length at
least two by a single space; pend holds the current maximal whitespace run. -/
def wsGo (pend : List Char) : List Char → List Char
  | [] => emitWS pend
  | c :: rest =>
    if isWS c then wsGo (pend ++ [c]) rest
    else emitWS pend ++ c :: wsGo [] rest

/-- Collapse whitespace runs of length at least two to a single space,
modelling the third replacement inside normalizeName. -/
def collapseWS (l : List Char) : List Char := wsGo [] l

/-- No three consecutive slashes occur in the list; this is exactly the
condition under which the slash-collapsing replacement is the identity. -/
def noTriple : List Char → Bool
  | c1 :: c2 :: c3 :: rest =>
    (!(decide (c1 = '/') && decide (c2 = '/') && decide (c3 = '/'))) &&
      noTriple (c2 :: c3 :: rest)
  | _ => true

/-- No two consecutive whitespace characters occur in the list; this is
exactly the condition under which the whitespace-collapsing replacement is
the identity. -/
def noDoubleWS : List Char → Bool
  | c1 :: c2 :: rest => (!(isWS c1 && isWS c2)) && noDoubleWS (c2 :: rest)
  | _ => true

/-- Does the list start with two slashes. -/
def startsSep : List Char → Bool
  | c1 :: c2 :: _ => decide (c1 = '/') && decide (c2 = '/')
  | _ => false

/-- Does the list end with two slashes. -/
def endsSep (l : List Char) : Bool := startsSep l.reverse

/-- Scan for double-slash separators checking that each one is flanked by a
single space or a list boundary on each side; the flag records whether the
previous character was a space or the start of the list. -/
def sfGo (leftOK : Bool) : List Char → Bool
  | [] => true
  | c :: rest =>
    match rest with
    | c2 :: rest2 =>
      if c = '/' ∧ c2 = '/' then
        leftOK &&
          (match rest2 with
           | [] => true
           | c3 :: _ => decide (c3 = ' ')) &&
          sfGo false rest2
      else sfGo (decide (c = ' ')) (c2 :: rest2)
    | [] => true

/-- Heads the list with a non-whitespace character, or is empty. -/
def noLeadWS : List Char → Bool
  | [] => true
  | c :: _ => !isWS c

/-- Ends the list with a non-whitespace character, or is empty. -/
def noTrailWS (l : List Char) : Bool := noLeadWS l.reverse

/-- The full normalization pipeline of normalizeName on character lists:
trim, collapse slash runs, space the separators, collapse whitespace runs,
trim again. -/
def normList (l : List Char) : List Char :=
  trimBoth (collapseWS (spaceSlashes (collapseSlashes (trimBoth l))))

/-- Model of normalizeName from the source: the falsy guard returns an empty
input unchanged, otherwise the four replacements run in order between two
trims. -/
def normalizeName (s : String) : String :=
  if s == "" then s else String.mk (normList s.data)

/-- Does the anchored regex of the bracket stripper match this whole suffix:
optional whitespace, an opening bracket, one or more non-closing-bracket
characters, a closing bracket, optional whitespace, end. -/
def brMatchAt (s : List Char) : Bool :=
  match s.dropWhile isWS with
  | '[' :: t =>
    match t.dropWhile (fun c => c ≠ ']') with
    | ']' :: u => decide (t.takeWhile (fun c => c ≠ ']') ≠ []) && u.all isWS
    | _ => false
  | _ => false

/-- Strip a trailing bracketed annotation, modelling the first name cleanup
replacement: scan left to right and cut at the leftmost position whose suffix
matches the anchored bracket regex. -/
def stripBracket : List Char → List Char
  | [] => []
  | c :: rest => if brMatchAt (c :: rest) then [] else c :: stripBracket rest

/-- Digit-or-slash test for the collector number tail of the parenthesis
stripper. -/
def isDS (c : Char) : Bool := isDigitC c || c = '/'

/-- Does the anchored regex of the parenthesis stripper match this whole
suffix: optional whitespace, a parenthesized group without closing parenthesis
inside, then optional whitespace, an optional run of digits and slashes,
optional whitespace, end. -/
def prMatchAt (s : List Char) : Bool :=
  match s.dropWhile isWS with
  | '(' :: t =>
    match t.dropWhile (fun c => c ≠ ')') with
    | ')' :: u => ((u.dropWhile isWS).dropWhile isDS).all isWS
    | _ => false
  | _ => false

/-- Strip a trailing parenthesized set annotation and optional collector
number, modelling the second name cleanup replacement. -/
def stripParen : List Char → List Char
  | [] => []
  | c :: rest => if prMatchAt (c :: rest) then [] else c :: stripParen rest

/-- Does the anchored regex of the trailing-integer stripper match this whole
suffix: one or more whitespace characters, one or more digits, optional
whitespace, end. -/
def tiMatchAt (s : List Char) : Bool :=
  decide (s.takeWhile isWS ≠ []) &&
  decide ((s.dropWhile isWS).takeWhile isDigitC ≠ []) &&
  ((s.dropWhile isWS).dropWhile isDigitC).all isWS

/-- Strip a residual trailing bare integer, modelling the third name cleanup
replacement. -/
def stripTrailInt : List Char → List Char
  | [] => []
  | c :: rest => if tiMatchAt (c :: rest) then [] else c :: stripTrailInt rest

/-- Decimal value of a digit run, modelling parseInt base 10 on the quantity
capture. -/
def natOfDigits (l : List Char) : Nat :=
  l.foldl (fun acc c => acc * 10 + (c.toNat - '0'.toNat)) 0

/-- Does the line start with the word sideboard, case-insensitively and at a
word boundary, modelling the sideboard line test of the parser. -/
def isSideboardLine (l : List Char) : Bool :=
  ((l.take 9).map Char.toLower == "sideboard".data) &&
  (match l.drop 9 with
   | [] => true
   | c :: _ => !isWordChar c)

/-- Does the line start with the word deck or companion, case-insensitively
and at a word boundary, modelling the header line test of the parser. -/
def isHeaderLine (l : List Char) : Bool :=
  (((l.take 4).map Char.toLower == "deck".data) &&
   (match l.drop 4 with
    | [] => true
    | c :: _ => !isWordChar c)) ||
  (((l.take 9).map Char.toLower == "companion".data) &&
   (match l.drop 9 with
    | [] => true
    | c :: _ => !isWordChar c))

/-- Attempt the whitespace-then-remainder part of the quantity regex: one or
more whitespace characters followed by a nonempty remainder reaching the end
of the line; the remainder may not contain a line break because the dot of
the regex does not match one. -/
def wsThenRest (t : List Char) : Option (List Char) :=
  let w := t.takeWhile isWS
  let rest := t.dropWhile isWS
  if w = [] then none
  else if rest = [] then none
  else if rest.all (fun c => c ≠ '\n') then some rest else none

/-- Match the quantity line regex: leading digits, an optional letter x, one
or more whitespace characters, then the nonempty remainder; the optional x is
tried first and given up on backtracking, as the regex engine does. -/
def parseQtyName (l : List Char) : Option (Nat × List Char) :=
  let d := l.takeWhile isDigitC
  let r1 := l.dropWhile isDigitC
  if d = [] then none
  else
    match r1 with
    | c :: r2 =>
      if c = 'x' || c = 'X' then
        match wsThenRest r2 with
        | some rest => some (natOfDigits d, rest)
        | none =>
          match wsThenRest r1 with
          | some rest => some (natOfDigits d, rest)
          | none => none
      else
        match wsThenRest r1 with
        | some rest => some (natOfDigits d, rest)
        | none => none
    | [] => none

/-- Full name cleanup applied to the remainder capture of a deck line: trim,
strip bracket annotation, strip parenthesized annotation, strip trailing bare
integer, then normalize. -/
def cleanupName (raw : List Char) : String :=
  normalizeName (String.mk (stripTrailInt (stripParen (stripBracket (trimBoth raw)))))

/-- Association list lookup, modelling Map.prototype.get and object property
read; absent keys give none. -/
def alGet {α : Type} (m : List (String × α)) (k : String) : Option α :=
  (m.find? (fun p => p.1 == k)).map (fun p => p.2)

/-- Association list update, modelling Map.prototype.set and object property
assignment: an existing key is updated in place, a new key is appended. -/
def alSet {α : Type} (m : List (String × α)) (k : String) (v : α) : List (String × α) :=
  match m with
  | [] => [(k, v)]
  | (k2, v2) :: rest => if k2 == k then (k, v) :: rest else (k2, v2) :: alSet rest k v

/-- A deck: the Map from canonical name to quantity built by the parser. -/
abbrev DeckMap : Type := List (String × Nat)

/-- The persisted merge choice object: name to chosen option string. -/
abbrev ChoiceMap : Type := List (String × String)

/-- Quantity of a name in a deck, modelling the get-or-zero reads of the
source. -/
def getQty (d : DeckMap) (n : String) : Nat := (alGet d n).getD 0

/-- State machine splitting on runs of line breaks, modelling split on the
newline-run regex; empty chunks are dropped, exactly as the later
filter-Boolean drops them after trimming. -/
def snGo (cur : List Char) : List Char → List (List Char)
  | [] => if cur = [] then [] else [cur]
  | c :: rest =>
    if c = '\n' then (if cur = [] then snGo [] rest else cur :: snGo [] rest)
    else snGo (cur ++ [c]) rest

/-- Split a character list on runs of newlines. -/
def splitNL (l : List Char) : List (List Char) := snGo [] l

/-- The line list the parser iterates over: carriage returns become newlines,
the text splits on newline runs, every line is trimmed, empty lines are
dropped. -/
def linesOf (t : String) : List (List Char) :=
  ((splitNL (t.data.map (fun c => if c = '\r' then '\n' else c))).map trimBoth).filter
    (fun l => decide (l ≠ []))

/-- The parser loop over lines: stop at a sideboard line, skip header lines,
skip lines that do not match the quantity regex, and accumulate the cleaned
name with get-or-zero plus quantity. -/
def plGo : List (List Char) → DeckMap → DeckMap
  | [], m => m
  | l :: rest, m =>
    if isSideboardLine l then m
    else if isHeaderLine l then plGo rest m
    else
      match parseQtyName l with
      | none => plGo rest m
      | some (qty, rawName) =>
        let name := cleanupName rawName
        plGo rest (alSet m name (getQty m name + qty))

/-- Model of parseDeckText from the source. -/
def parseDeckText (t : String) : DeckMap := plGo (linesOf t) []

/-- Code-point lexicographic order on character lists, the model of the
localeCompare comparator used for sorting names. -/
def lexLe : List Char → List Char → Bool
  | [], _ => true
  | _ :: _, [] => false
  | a :: as, b :: bs => if a = b then lexLe as bs else decide (a.toNat < b.toNat)

/-- The string comparator derived from lexLe. -/
def strLeb (a b : String) : Bool := lexLe a.data b.data

/-- Insert into a sorted list of strings, keeping strLeb order. -/
def insertSorted (x : String) : List String → List String
  | [] => [x]
  | y :: ys => if strLeb x y then x :: y :: ys else y :: insertSorted x ys

/-- Insertion sort by strLeb, the model of Array.prototype.sort with the
localeCompare comparator. -/
def sortStrings : List String → List String
  | [] => []
  | x :: xs => insertSorted x (sortStrings xs)

/-- Deduplication keeping first occurrences, the model of building a Set from
the concatenated key iterations. -/
def dedupSeen (seen : List String) : List String → List String
  | [] => []
  | x :: xs =>
    if seen.contains x then dedupSeen seen xs
    else x :: dedupSeen (seen ++ [x]) xs

/-- Keys of an association list in order. -/
def keysOf {α : Type} (m : List (String × α)) : List String := m.map (fun p => p.1)

/-- Model of unionNames from the source: the deduplicated keys of both decks,
sorted by the comparator. -/
def unionNames (a b : DeckMap) : List String :=
  sortStrings (dedupSeen [] (keysOf a ++ keysOf b))

/-- One row of the merged deck display. -/
structure MergeRow where
  name : String
  qty : Nat
  choice : Option String
  options : List String
  qa : Nat
  qb : Nat
deriving DecidableEq, Repr

/-- The truthiness-based fallback of the source expression choice-or-default:
a stored empty string is falsy and falls back, any other stored string is
used. -/
def jsOr (o : Option String) (d : Option String) : Option String :=
  match o with
  | some v => if v == "" then d else some v
  | none => d

/-- The body of the map callback inside computeMergedDeck: quantities with
get-or-zero, the options and default choice by presence and equality, the
resolved choice through the falsy fallback, and the quantity selected by the
resolved choice. -/
def mergeRowFor (deckA deckB : DeckMap) (mergeChoices : ChoiceMap) (name : String) :
    MergeRow :=
  let qa := getQty deckA name
  let qb := getQty deckB name
  let od : List String × Option String :=
    if 0 < qa ∧ 0 < qb then
      if qa = qb then (["A", "B"], some "A") else (["A", "B", "Both"], some "Both")
    else if 0 < qa then (["A"], some "A")
    else if 0 < qb then (["B"], some "B")
    else ([], none)
  let choice := jsOr (alGet mergeChoices name) od.2
  let qty : Nat :=
    if choice == some "A" then qa
    else if choice == some "B" then qb
    else if choice == some "Both" then qa + qb
    else 0
  { name := name, qty := qty, choice := choice, options := od.1, qa := qa, qb := qb }

/-- Model of computeMergedDeck from the source: a row for every union name,
rows of quantity zero filtered out. -/
def computeMergedDeck (deckA deckB : DeckMap) (mergeChoices : ChoiceMap) :
    List MergeRow :=
  ((unionNames deckA deckB).map (mergeRowFor deckA deckB mergeChoices)).filter
    (fun r => decide (0 < r.qty))

/-- Join character-list lines with single newline separators, modelling
Array.prototype.join with a newline. -/
def joinLines : List (List Char) → List Char
  | [] => []
  | [l] => l
  | l :: l2 :: rest => l ++ '\n' :: joinLines (l2 :: rest)

/-- One serialized row of the text export: quantity, one space, name. -/
def exportLine (n : String) (q : Nat) : List Char := (toString q ++ " " ++ n).data

/-- The plain text serialization of downloadMergedDeck: quantity, one space,
name, lines joined by newlines. -/
def exportRows (rows : List MergeRow) : String :=
  String.mk (joinLines (rows.map (fun r => exportLine r.name r.qty)))

/-- One deck entry survives the export and reparse cycle: its serialized line
contains no line break, is trim-stable, is not mistaken for a sideboard or
header line, and the quantity regex recovers the quantity while the name
cleanup leaves the name unchanged. Entries produced by parsing ordinary deck
lines satisfy this; the counterexamples of the round-trip claim are exactly
the entries that do not. -/
def lineRoundTrips (n : String) (q : Nat) : Bool :=
  (decide (exportLine n q ≠ [])) &&
  (exportLine n q).all (fun c => c ≠ '\n' && c ≠ '\r') &&
  (trimBoth (exportLine n q) == exportLine n q) &&
  (!(isSideboardLine (exportLine n q))) &&
  (!(isHeaderLine (exportLine n q))) &&
  (match parseQtyName (exportLine n q) with
   | some p => (p.1 == q) && (cleanupName p.2 == n)
   | none => false)

/-- One face of a raw catalog card, with the field the resolver reads. -/
structure RawFace where
  name : String
deriving DecidableEq, Repr

/-- A raw catalog card as the bulk and single lookups return it, with the
fields the resolver logic reads; the purely presentational fields consumed by
normalizeCard (costs, types, images, links) are not modelled because no cache
or resolution decision depends on them. -/
structure RawCard where
  name : String
  card_faces : Option (List RawFace)
deriving DecidableEq, Repr

/-- The record normalizeCard builds; of its fields the resolver logic uses
only the canonical name, under which the record is cached. -/
structure CardRec where
  name : String
deriving DecidableEq, Repr

/-- Model of normalizeCard from the source, restricted to the field the
resolver reads back. -/
def normalizeCard (c : RawCard) : CardRec := { name := c.name }

/-- A cache entry: a record or a null tombstone, with its write timestamp. -/
structure CacheEntry where
  card : Option CardRec
  ts : Nat
deriving DecidableEq, Repr

/-- The card cache object: name to entry. -/
abbrev CacheMap : Type := List (String × CacheEntry)

/-- Name of the first face of a raw card, or the empty string, modelling the
optional chain with the or-empty fallback. -/
def face0Name (c : RawCard) : String :=
  match c.card_faces with
  | some (f :: _) => f.name
  | _ => ""

/-- The parsed body of one bulk collection response: the returned records and
the identifiers reported as not found. A response with missing fields is
modelled by empty lists, exactly as the or-empty reads of the source. -/
structure BulkResp where
  data : List RawCard
  not_found : List String
deriving DecidableEq, Repr

/-- One network call issued by the resolver, as recorded in the call log. -/
inductive CallRec where
  | bulk (req : List String)
  | named (kind q : String)
deriving DecidableEq, Repr

/-- The transport: a bulk collection lookup and a single named lookup. An
error value models a rejected fetch or a body whose json parse throws; for
the named lookup, ok-none models a response whose ok flag is false. -/
structure Net where
  bulkFetch : List String → Except Unit BulkResp
  namedFetch : String → String → Except Unit (Option RawCard)

/-- Fuel-driven chunking of the name list, modelling the batch helper at the
chunk size seventy the resolver passes. -/
def chunks70F : Nat → List String → List (List String)
  | _, [] => []
  | 0, l => [l]
  | f + 1, x :: xs => ((x :: xs).take 70) :: chunks70F f ((x :: xs).drop 70)

/-- The batches of size seventy the resolver iterates over. -/
def batch70 (l : List String) : List (List String) := chunks70F l.length l

/-- First loop over a bulk response: index every record by lowercased
canonical name and lowercased first-face name, and cache every record under
its canonical name with the current timestamp. -/
def phase1 (now : Nat) :
    List RawCard → CacheMap → List (String × RawCard) → List (String × RawCard) →
    CacheMap × List (String × RawCard) × List (String × RawCard)
  | [], cache, byC, byF => (cache, byC, byF)
  | c :: rest, cache, byC, byF =>
    let canon := lowerStr c.name
    let byC2 := if canon == "" then byC else alSet byC canon c
    let f0 := lowerStr (face0Name c)
    let byF2 := if f0 == "" then byF else alSet byF f0 c
    let card := normalizeCard c
    phase1 now rest (alSet cache card.name { card := some card, ts := now }) byC2 byF2

/-- Second loop over a chunk: a requested name not cached yet is matched
case-insensitively, through its normalized form, against the canonical index
and then the first-face index, and cached under the requested name. -/
def phase2 (now : Nat) :
    List String → CacheMap → List (String × RawCard) → List (String × RawCard) → CacheMap
  | [], cache, _, _ => cache
  | origName :: rest, cache, byC, byF =>
    let cache2 :=
      if (alGet cache origName).isSome then cache
      else
        let q := lowerStr (normalizeName origName)
        match (alGet byC q).or (alGet byF q) with
        | some c => alSet cache origName { card := some (normalizeCard c), ts := now }
        | none => cache
    phase2 now rest cache2 byC byF

/-- The text before the first double-slash separator, modelling the head of
the split on the two-character separator. -/
def beforeSep : List Char → List Char
  | [] => []
  | '/' :: '/' :: _ => []
  | c :: rest => c :: beforeSep rest

/-- The ordered fallback variants for one unresolved name: exact then fuzzy
on the full normalized name, then exact and fuzzy on the trimmed front part
when the name has a separator and the front part is nonempty. -/
def variantsFor (origName : String) : List (String × String) :=
  let full := normalizeName origName
  let frontOnly := jsTrim (String.mk (beforeSep full.data))
  [("exact", full), ("fuzzy", full)] ++
    (if frontOnly == "" then [] else [("exact", frontOnly), ("fuzzy", frontOnly)])

/-- Try the fallback variants in order, logging each named call; an error is
caught and treated like a not-ok response, both falling through to the next
variant; the first record returned wins and the remaining variants are
skipped. -/
def tryVariants (net : Net) : List (String × String) → Option RawCard × List CallRec
  | [] => (none, [])
  | (kind, q) :: rest =>
    match net.namedFetch kind q with
    | .ok (some c) => (some c, [CallRec.named kind q])
    | .ok none =>
      let r := tryVariants net rest
      (r.1, CallRec.named kind q :: r.2)
    | .error _ =>
      let r := tryVariants net rest
      (r.1, CallRec.named kind q :: r.2)

/-- Third loop over a chunk: for a name still uncached that the bulk call
reported as not found, run the fallback variants; cache a returned record
under the requested name, otherwise write a null tombstone. -/
def phase3 (net : Net) (now : Nat) (notFound : List String) :
    List String → CacheMap → CacheMap × List CallRec
  | [], cache => (cache, [])
  | origName :: rest, cache =>
    if (alGet cache origName).isSome then phase3 net now notFound rest cache
    else if !(notFound.contains (lowerStr origName)) then phase3 net now notFound rest cache
    else
      let t := tryVariants net (variantsFor origName)
      let cache2 :=
        match t.1 with
        | some c => alSet cache origName { card := some (normalizeCard c), ts := now }
        | none =>
          if (alGet cache origName).isNone then
            alSet cache origName { card := none, ts := now }
          else cache
      let r := phase3 net now notFound rest cache2
      (r.1, t.2 ++ r.2)

/-- Processing of one arrived bulk response: the indexing and caching loop,
the request matching loop and the fallback loop run in order; the result is
the new cache and the named calls issued by the fallbacks. -/
def processChunk (net : Net) (now : Nat) (chunk : List String) (resp : BulkResp)
    (cache : CacheMap) : CacheMap × List CallRec :=
  let notFound := resp.not_found.map lowerStr
  let p1 := phase1 now resp.data cache [] []
  let cache2 := phase2 now chunk p1.1 p1.2.1 p1.2.2
  phase3 net now notFound chunk cache2

/-- The loop of fetchCardsByNames over batches: a bulk call whose transport
raises aborts the whole pass with the cache as mutated so far, because the
await is not inside any try block; a bulk response that arrives is processed
by the three loops in order. The boolean records whether the pass ran to
completion. -/
def fetchGo (net : Net) (now : Nat) :
    List (List String) → CacheMap → Bool × CacheMap × List CallRec
  | [], cache => (true, cache, [])
  | chunk :: rest, cache =>
    match net.bulkFetch chunk with
    | .error _ => (false, cache, [CallRec.bulk chunk])
    | .ok resp =>
      let pc := processChunk net now chunk resp cache
      let r := fetchGo net now rest pc.1
      (r.1, r.2.1, CallRec.bulk chunk :: pc.2 ++ r.2.2)

/-- Model of fetchCardsByNames from the source: names already cached,
tombstones included, are filtered out first; an empty remainder returns at
once with no calls; otherwise the batches are processed in order. The final
write of the cache to the persistent store is an external effect outside the
model. -/
def fetchCardsByNames (net : Net) (now : Nat) (names : List String) (cache : CacheMap) :
    Bool × CacheMap × List CallRec :=
  let toFetch := names.filter (fun n => (alGet cache n).isNone)
  if toFetch.isEmpty then (true, cache, [])
  else fetchGo net now (batch70 toFetch) cache

/-- The external contract of the bulk endpoint, from the interface section of
the specification: every requested identifier is either reported in the
not-found list or answered by a record that the indexing of the resolver can
associate with the request — by exact canonical name, by lowercased canonical
name against the normalized request, or by lowercased first-face name
against the normalized request. -/
def netWellFormed (net : Net) : Prop :=
  ∀ req resp, net.bulkFetch req = .ok resp → ∀ n, n ∈ req →
    lowerStr n ∈ resp.not_found.map lowerStr ∨
    (∃ c, c ∈ resp.data ∧
      ((normalizeCard c).name = n ∨
       (lowerStr c.name ≠ "" ∧ lowerStr c.name = lowerStr (normalizeName n)) ∨
       (lowerStr (face0Name c) ≠ "" ∧ lowerStr (face0Name c) = lowerStr (normalizeName n))))

/-- A concrete transport whose bulk endpoint raises exactly on requests
containing the name n0 and otherwise resolves every requested name; its named
endpoint always raises. -/
def netSplit : Net where
  bulkFetch := fun req =>
    if req.contains "n0" then Except.error ()
    else Except.ok { data := req.map (fun n => { name := n, card_faces := none }),
                     not_found := [] }
  namedFetch := fun _ _ => Except.error ()

/-- Seventy-one names, so that the resolver splits them into two batches. -/
def names71 : List String := (List.range 71).map (fun i => "n" ++ toString i)

/-- A concrete transport whose bulk endpoint always answers with one fixed
record named Zzz and reports every identifier as not found, and whose named
endpoint always answers with a record named Aaa. -/
def netExtra : Net where
  bulkFetch := fun req =>
    Except.ok { data := [{ name := "Zzz", card_faces := none }], not_found := req }
  namedFetch := fun _ _ => Except.ok (some { name := "Aaa", card_faces := none })

/-- A concrete transport whose bulk endpoint reports every identifier as not
found and whose named endpoint always answers with a not-ok response. -/
def netMiss : Net where
  bulkFetch := fun req => Except.ok { data := [], not_found := req }
  namedFetch := fun _ _ => Except.ok none

/-- Preservation of cache entries across one resolution pass: an entry either
survives unchanged or is overwritten by a fresh entry holding a record, never
by a tombstone, because the only unguarded cache write stores a record. -/
def cachePreserved (now : Nat) (m m2 : CacheMap) : Prop :=
  ∀ k e, alGet m k = some e →
    alGet m2 k = some e ∨
    ∃ e2, alGet m2 k = some e2 ∧ e2.card.isSome = true ∧ e2.ts = now

/-- Truthiness of an optional quantity, modelling the truthiness tests of
computeStatus where zero and undefined are both falsy. -/
def truthyQty (o : Option Nat) : Bool :=
  match o with
  | some n => decide (n ≠ 0)
  | none => false

/-- Model of computeStatus from the source. -/
def computeStatus (qa qb : Option Nat) : String :=
  if truthyQty qa && truthyQty qb then
    if qa.getD 0 = qb.getD 0 then "equal" else "diff"
  else if truthyQty qa && !truthyQty qb then "onlyA"
  else if !truthyQty qa && truthyQty qb then "onlyB"
  else "equal"

/-! Shared helper lemmas. -/

theorem alGet_nil {α : Type} (k : String) : alGet ([] : List (String × α)) k = none := rfl

theorem alGet_cons {α : Type} (k2 : String) (v2 : α) (m : List (String × α)) (k : String) :
    alGet ((k2, v2) :: m) k = if k2 = k then some v2 else alGet m k := by
  by_cases h : k2 = k
  · have hb : (k2 == k) = true := by simpa using h
    simp [alGet, List.find?, hb, h]
  · have hb : (k2 == k) = false := by simpa using h
    simp [alGet, List.find?, hb, h]

theorem alGet_alSet_self {α : Type} (m : List (String × α)) (k : String) (v : α) :
    alGet (alSet m k v) k = some v := by
  induction m with
  | nil => simp [alSet, alGet_cons]
  | cons p rest ih =>
    by_cases h : p.1 = k
    · simp [alSet, h, alGet_cons]
    · simp only [alSet]
      rw [if_neg (by simpa using h)]
      rw [alGet_cons, if_neg h]
      exact ih

theorem alGet_alSet_other {α : Type} (m : List (String × α)) (k k2 : String) (v : α)
    (h : k ≠ k2) : alGet (alSet m k v) k2 = alGet m k2 := by
  induction m with
  | nil => simp [alSet, alGet_cons, alGet_nil, h]
  | cons p rest ih =>
    by_cases hp : p.1 = k
    · simp only [alSet]
      rw [if_pos (by simpa using hp)]
      rw [alGet_cons, alGet_cons, if_neg h, hp, if_neg h]
    · simp only [alSet]
      rw [if_neg (by simpa using hp)]
      rw [alGet_cons, alGet_cons]
      by_cases hq : p.1 = k2
      · simp [hq]
      · rw [if_neg hq, if_neg hq]
        exact ih

theorem alGet_isSome_alSet {α : Type} (m : List (String × α)) (k k2 : String) (v : α)
    (h : (alGet m k2).isSome) : (alGet (alSet m k v) k2).isSome := by
  by_cases hk : k = k2
  · subst hk
    simp [alGet_alSet_self]
  · rwa [alGet_alSet_other m k k2 v hk]

theorem alGet_isSome_iff_mem_keys {α : Type} (m : List (String × α)) (k : String) :
    (alGet m k).isSome ↔ k ∈ keysOf m := by
  induction m with
  | nil => simp [alGet_nil, keysOf]
  | cons p rest ih =>
    rw [show (p.1, p.2) :: rest = (p.1, p.2) :: rest from rfl] at *
    rcases p with ⟨k2, v2⟩
    rw [alGet_cons]
    by_cases h : k2 = k
    · simp [h, keysOf]
    · simp only [if_neg h, keysOf, List.map_cons, List.mem_cons]
      rw [keysOf] at ih
      simp [ih, Ne.symm h]

theorem getQty_pos_mem_keys (d : DeckMap) (n : String) (h : 0 < getQty d n) :
    n ∈ keysOf d := by
  rw [← alGet_isSome_iff_mem_keys]
  rcases hg : alGet d n with _ | q
  · rw [getQty, hg] at h
    simp at h
  · simp

/-! Order, sorting and deduplication lemmas for the union of names. -/

theorem lexLe_total (a b : List Char) : lexLe a b = true ∨ lexLe b a = true := by
  induction a generalizing b with
  | nil => left; rfl
  | cons x xs ih =>
    cases b with
    | nil => right; rfl
    | cons y ys =>
      by_cases h : x = y
      · subst h
        simpa [lexLe] using ih ys
      · rcases Nat.lt_or_ge x.toNat y.toNat with hlt | hge
        · left
          simp [lexLe, h, hlt]
        · right
          have hne : y ≠ x := fun hyx => h hyx.symm
          have : y.toNat < x.toNat := by
            rcases Nat.lt_or_ge y.toNat x.toNat with h1 | h1
            · exact h1
            · exfalso
              have h2 := Nat.le_antisymm hge h1
              exact h (Char.eq_of_val_eq (UInt32.ext h2.symm))
          simp [lexLe, hne, this]

theorem lexLe_trans {a b c : List Char} (h1 : lexLe a b = true) (h2 : lexLe b c = true) :
    lexLe a c = true := by
  induction a generalizing b c with
  | nil => rfl
  | cons x xs ih =>
    cases b with
    | nil => simp [lexLe] at h1
    | cons y ys =>
      cases c with
      | nil => simp [lexLe] at h2
      | cons z zs =>
        by_cases hxy : x = y
        · subst hxy
          by_cases hxz : x = z
          · subst hxz
            simp only [lexLe, if_pos rfl] at h1 h2 ⊢
            exact ih h1 h2
          · simp only [lexLe, if_pos rfl] at h1
            simpa [lexLe, hxz] using h2
        · by_cases hyz : y = z
          · subst hyz
            simpa [lexLe, hxy] using h1
          · simp only [lexLe, if_neg hxy] at h1
            simp only [lexLe, if_neg hyz] at h2
            have hlt1 : x.toNat < y.toNat := by simpa using h1
            have hlt2 : y.toNat < z.toNat := by simpa using h2
            have hxz : x ≠ z := by
              intro he
              subst he
              exact Nat.lt_irrefl _ (Nat.lt_trans hlt1 hlt2)
            simp [lexLe, hxz, Nat.lt_trans hlt1 hlt2]

theorem strLeb_total (a b : String) : strLeb a b = true ∨ strLeb b a = true :=
  lexLe_total a.data b.data

theorem strLeb_trans {a b c : String} (h1 : strLeb a b = true) (h2 : strLeb b c = true) :
    strLeb a c = true := lexLe_trans h1 h2

theorem mem_insertSorted (x a : String) (l : List String) :
    a ∈ insertSorted x l ↔ a = x ∨ a ∈ l := by
  induction l with
  | nil => simp [insertSorted]
  | cons y ys ih =>
    by_cases h : strLeb x y
    · simp [insertSorted, h]
    · simp only [insertSorted, if_neg h, List.mem_cons, ih]
      tauto

theorem pairwise_insertSorted (x : String) (l : List String)
    (h : l.Pairwise (fun a b => strLeb a b = true)) :
    (insertSorted x l).Pairwise (fun a b => strLeb a b = true) := by
  induction l with
  | nil => simp [insertSorted]
  | cons y ys ih =>
    rcases List.pairwise_cons.mp h with ⟨hy, hys⟩
    by_cases hle : strLeb x y
    · rw [insertSorted, if_pos hle]
      refine List.pairwise_cons.mpr ⟨?_, h⟩
      intro b hb
      rcases List.mem_cons.mp hb with rfl | hbys
      · exact hle
      · exact strLeb_trans hle (hy b hbys)
    · have hyx : strLeb y x = true := by
        rcases strLeb_total x y with h1 | h1
        · exact absurd h1 hle
        · exact h1
      rw [insertSorted, if_neg hle]
      refine List.pairwise_cons.mpr ⟨?_, ih hys⟩
      intro b hb
      rcases (mem_insertSorted x b ys).mp hb with rfl | hbys
      · exact hyx
      · exact hy b hbys

theorem mem_sortStrings (a : String) (l : List String) :
    a ∈ sortStrings l ↔ a ∈ l := by
  induction l with
  | nil => simp [sortStrings]
  | cons x xs ih =>
    simp [sortStrings, mem_insertSorted, ih]

theorem pairwise_sortStrings (l : List String) :
    (sortStrings l).Pairwise (fun a b => strLeb a b = true) := by
  induction l with
  | nil => simp [sortStrings]
  | cons x xs ih => exact pairwise_insertSorted x _ ih

theorem nodup_insertSorted (x : String) (l : List String) (hx : x ∉ l) (h : l.Nodup) :
    (insertSorted x l).Nodup := by
  induction l with
  | nil => simp [insertSorted]
  | cons y ys ih =>
    rcases List.nodup_cons.mp h with ⟨hy, hys⟩
    by_cases hle : strLeb x y
    · rw [insertSorted, if_pos hle]
      exact List.nodup_cons.mpr ⟨by simpa using hx, h⟩
    · rw [insertSorted, if_neg hle]
      refine List.nodup_cons.mpr ⟨?_, ih (fun hm => hx (List.mem_cons_of_mem _ hm)) hys⟩
      intro hmem
      rcases (mem_insertSorted x y ys).mp hmem with rfl | hmem2
      · exact hx (List.mem_cons_self _ _)
      · exact hy hmem2

theorem nodup_sortStrings (l : List String) (h : l.Nodup) : (sortStrings l).Nodup := by
  induction l with
  | nil => simp [sortStrings]
  | cons x xs ih =>
    rcases List.nodup_cons.mp h with ⟨hx, hxs⟩
    exact nodup_insertSorted x _ (fun hm => hx ((mem_sortStrings x xs).mp hm)) (ih hxs)

theorem mem_dedupSeen (a : String) (seen l : List String) :
    a ∈ dedupSeen seen l ↔ a ∈ l ∧ a ∉ seen := by
  induction l generalizing seen with
  | nil => simp [dedupSeen]
  | cons x xs ih =>
    by_cases h : seen.contains x
    · have hx : x ∈ seen := by simpa using h
      rw [dedupSeen, if_pos h, ih]
      constructor
      · rintro ⟨h1, h2⟩
        exact ⟨List.mem_cons_of_mem _ h1, h2⟩
      · rintro ⟨h1, h2⟩
        rcases List.mem_cons.mp h1 with rfl | h1
        · exact absurd hx h2
        · exact ⟨h1, h2⟩
    · have hx : x ∉ seen := by simpa using h
      rw [dedupSeen, if_neg h, List.mem_cons, ih]
      constructor
      · rintro (rfl | ⟨h1, h2⟩)
        · exact ⟨List.mem_cons_self _ _, hx⟩
        · refine ⟨List.mem_cons_of_mem _ h1, fun hm => h2 (List.mem_append_left _ hm)⟩
      · rintro ⟨h1, h2⟩
        by_cases hax : a = x
        · exact Or.inl hax
        · rcases List.mem_cons.mp h1 with rfl | h1
          · exact absurd rfl hax
          · refine Or.inr ⟨h1, fun hm => ?_⟩
            rcases List.mem_append.mp hm with hm1 | hm1
            · exact h2 hm1
            · have : a = x := by simpa using hm1
              exact hax this

theorem nodup_dedupSeen (seen l : List String) : (dedupSeen seen l).Nodup := by
  induction l generalizing seen with
  | nil => simp [dedupSeen]
  | cons x xs ih =>
    by_cases h : seen.contains x
    · rw [dedupSeen, if_pos h]
      exact ih seen
    · rw [dedupSeen, if_neg h]
      refine List.nodup_cons.mpr ⟨?_, ih (seen ++ [x])⟩
      intro hm
      rcases (mem_dedupSeen x (seen ++ [x]) xs).mp hm with ⟨_, h2⟩
      exact h2 (List.mem_append_right _ (by simp))

theorem mem_unionNames (a b : DeckMap) (n : String) :
    n ∈ unionNames a b ↔ n ∈ keysOf a ∨ n ∈ keysOf b := by
  rw [unionNames, mem_sortStrings, mem_dedupSeen]
  simp

theorem nodup_unionNames (a b : DeckMap) : (unionNames a b).Nodup :=
  nodup_sortStrings _ (nodup_dedupSeen [] _)

theorem pairwise_unionNames (a b : DeckMap) :
    (unionNames a b).Pairwise (fun x y => strLeb x y = true) :=
  pairwise_sortStrings _

/-! Merge row helper lemmas. -/

theorem mergeRowFor_name (A B : DeckMap) (ch : ChoiceMap) (n : String) :
    (mergeRowFor A B ch n).name = n := rfl

theorem filter_rows_aux (f : String → MergeRow) (hf : ∀ m, (f m).name = m) (n : String) :
    ∀ ns : List String, ns.Nodup →
      ((ns.map f).filter (fun r => (r.name == n) && decide (0 < r.qty))) =
        if n ∈ ns ∧ 0 < (f n).qty then [f n] else [] := by
  intro ns
  induction ns with
  | nil => simp
  | cons m ms ih =>
    intro hnodup
    rcases List.nodup_cons.mp hnodup with ⟨hm, hms⟩
    by_cases hmn : m = n
    · subst hmn
      have hnone : ((ms.map f).filter (fun r => (r.name == m) && decide (0 < r.qty))) = [] := by
        rw [List.filter_eq_nil_iff]
        intro r hr
        rcases List.mem_map.mp hr with ⟨m2, hm2, rfl⟩
        rw [hf]
        intro hcontra
        have : m2 = m := by
          have := (Bool.and_eq_true _ _).mp hcontra
          simpa using this.1
        exact hm (this ▸ hm2)
      by_cases hq : 0 < (f m).qty
      · simp [List.filter_cons, hf, hq, hnone]
      · simp [List.filter_cons, hf, hq, hnone]
    · rw [List.map_cons, List.filter_cons]
      have hfalse : ((f m).name == n) = false := by
        rw [hf]
        simpa using hmn
      simp only [hfalse, Bool.false_and, Bool.false_eq_true, if_false]
      rw [ih hms]
      by_cases hmem : n ∈ ms
      · simp [List.mem_cons, hmem]
      · have h1 : ¬(n ∈ m :: ms) := by
          intro h
          rcases List.mem_cons.mp h with h | h
          · exact hmn h.symm
          · exact hmem h
        simp [hmem, h1]

theorem merged_rows_filter_name (A B : DeckMap) (ch : ChoiceMap) (n : String) :
    (computeMergedDeck A B ch).filter (fun r => r.name == n) =
      if n ∈ unionNames A B ∧ 0 < (mergeRowFor A B ch n).qty
      then [mergeRowFor A B ch n] else [] := by
  rw [computeMergedDeck, List.filter_filter]
  exact filter_rows_aux (mergeRowFor A B ch) (mergeRowFor_name A B ch) n
    (unionNames A B) (nodup_unionNames A B)

theorem merged_rows_qty_pos (A B : DeckMap) (ch : ChoiceMap) (r : MergeRow)
    (hr : r ∈ computeMergedDeck A B ch) : 0 < r.qty := by
  have := List.mem_filter.mp hr
  simpa using this.2

theorem merged_rows_pairwise (A B : DeckMap) (ch : ChoiceMap) :
    (computeMergedDeck A B ch).Pairwise (fun r1 r2 => strLeb r1.name r2.name = true) := by
  rw [computeMergedDeck]
  apply List.Pairwise.sublist (List.filter_sublist _)
  rw [List.pairwise_map]
  simpa only [mergeRowFor_name] using pairwise_unionNames A B

/-! Claim theorems. -/

/-- C7: the diff status of two optional quantities is the string equal
exactly when the two quantities agree, an absent quantity counting as zero;
in particular two absent quantities give equal. -/
theorem C7_status_equal_iff (qa qb : Option Nat) :
    computeStatus qa qb = "equal" ↔ qa.getD 0 = qb.getD 0 := by
  rcases qa with _ | a <;> rcases qb with _ | b
  · simp [computeStatus, truthyQty]
  · rcases Nat.eq_zero_or_pos b with rfl | hb
    · simp [computeStatus, truthyQty]
    · have : b ≠ 0 := Nat.pos_iff_ne_zero.mp hb
      simp [computeStatus, truthyQty, this]
      intro h
      exact absurd h.symm this
  · rcases Nat.eq_zero_or_pos a with rfl | ha
    · simp [computeStatus, truthyQty]
    · have : a ≠ 0 := Nat.pos_iff_ne_zero.mp ha
      simp [computeStatus, truthyQty, this]
  · rcases Nat.eq_zero_or_pos a with rfl | ha
    · rcases Nat.eq_zero_or_pos b with rfl | hb
      · simp [computeStatus, truthyQty]
      · have : b ≠ 0 := Nat.pos_iff_ne_zero.mp hb
        simp [computeStatus, truthyQty, this]
        intro h
        exact absurd h.symm this
    · rcases Nat.eq_zero_or_pos b with rfl | hb
      · have : a ≠ 0 := Nat.pos_iff_ne_zero.mp ha
        simp [computeStatus, truthyQty, this]
      · have ha2 : a ≠ 0 := Nat.pos_iff_ne_zero.mp ha
        have hb2 : b ≠ 0 := Nat.pos_iff_ne_zero.mp hb
        by_cases hab : a = b
        · simp [computeStatus, truthyQty, ha2, hb2, hab]
        · simp [computeStatus, truthyQty, ha2, hb2, hab]

/-- C6 counterexample: a line with quantity zero leaves the key present with
quantity zero in the parsed deck, so the claimed parse invariant that every
stored quantity is strictly positive fails. -/
theorem C6_counterexample :
    parseDeckText "0 Foo" = [("Foo", 0)] ∧
    alGet (parseDeckText "0 Foo") "Foo" = some 0 := by
  constructor <;> rfl

/-- C6 amended: the parser itself may store a zero quantity, as with the line
of quantity zero; the strict positivity holds one consumption step later, in
every row of the merged deck output, where zero-quantity rows are filtered. -/
theorem C6_amended_merge_qty_pos :
    (∀ (A B : DeckMap) (ch : ChoiceMap) r, r ∈ computeMergedDeck A B ch → 0 < r.qty) ∧
    alGet (parseDeckText "0 Foo") "Foo" = some 0 := by
  constructor
  · intro A B ch r hr
    have := List.mem_filter.mp hr
    simpa using this.2
  · rfl

/-- C6 witness: the amended statement applied at a concrete deck and row. -/
theorem C6_amended_witness :
    ({ name := "a", qty := 1, choice := some "A", options := ["A"], qa := 1, qb := 0 } :
      MergeRow) ∈ computeMergedDeck [("a", 1)] [] [] ∧
    0 < ({ name := "a", qty := 1, choice := some "A", options := ["A"], qa := 1, qb := 0 } :
      MergeRow).qty :=
  ⟨by decide, C6_amended_merge_qty_pos.1 [("a", 1)] [] [] _ (by decide)⟩

/-- C1 counterexample: a persisted choice B for a name only present in deck A
is not a member of the available options, yet the merge row does not fall
back to the default choice A with quantity two; instead the stored choice is
used, its quantity is zero, and the row disappears from the output. -/
theorem C1_counterexample :
    alGet ([("Foo", "B")] : ChoiceMap) "Foo" = some "B" ∧
    "B" ∉ (mergeRowFor [("Foo", 2)] [] [("Foo", "B")] "Foo").options ∧
    computeMergedDeck [("Foo", 2)] [] [("Foo", "B")] = [] ∧
    computeMergedDeck [("Foo", 2)] [] [] =
      [{ name := "Foo", qty := 2, choice := some "A", options := ["A"], qa := 2, qb := 0 }] := by
  refine ⟨rfl, by decide, rfl, rfl⟩

/-- C1 amended: a stored choice is used whenever it is present and nonempty,
even when it is stale; a persisted choice B for a name whose quantity in deck
B is zero gives the row quantity zero, so the name is dropped from the merge
output entirely instead of falling back to the computed default. -/
theorem C1_amended_stale_choice_drops_row (A B : DeckMap) (ch : ChoiceMap) (n : String)
    (hch : alGet ch n = some "B") (hqb : getQty B n = 0) :
    (computeMergedDeck A B ch).filter (fun r => r.name == n) = [] := by
  rw [merged_rows_filter_name]
  have hqty : (mergeRowFor A B ch n).qty = 0 := by
    simp only [mergeRowFor, hch, jsOr]
    have h1 : (("B" : String) == "") = false := by decide
    have h2 : ((some "B" : Option String) == some "A") = false := by decide
    have h3 : ((some "B" : Option String) == some "B") = true := by decide
    simp [h1, h2, h3, hqb]
  rw [if_neg]
  intro hcontra
  rw [hqty] at hcontra
  exact Nat.lt_irrefl 0 hcontra.2

/-- C1 amended witness: the amended statement at a concrete input. -/
theorem C1_amended_witness :
    (computeMergedDeck [("Foo", 2)] [] [("Foo", "B")]).filter
      (fun r => r.name == "Foo") = [] :=
  C1_amended_stale_choice_drops_row [("Foo", 2)] [] [("Foo", "B")] "Foo" rfl rfl

/-- Helper for C8: the parser loop only ever consumes the lines before the
first sideboard line. -/
theorem plGo_takeWhile (ls : List (List Char)) (m : DeckMap) :
    plGo ls m = plGo (ls.takeWhile (fun l => !isSideboardLine l)) m := by
  induction ls generalizing m with
  | nil => rfl
  | cons l rest ih =>
    cases hs : isSideboardLine l with
    | true => simp [plGo, hs, List.takeWhile_cons]
    | false =>
      have htk : (l :: rest).takeWhile (fun l => !isSideboardLine l) =
          l :: rest.takeWhile (fun l => !isSideboardLine l) := by
        simp [List.takeWhile_cons, hs]
      rw [htk]
      cases hh : isHeaderLine l with
      | true =>
        have h1 : ∀ (r : List (List Char)) m2, plGo (l :: r) m2 = plGo r m2 := by
          intro r m2
          simp [plGo, hs, hh]
        rw [h1, h1]
        exact ih m
      | false =>
        rcases hq : parseQtyName l with _ | ⟨qty, rawName⟩
        · have h1 : ∀ (r : List (List Char)) m2, plGo (l :: r) m2 = plGo r m2 := by
            intro r m2
            simp [plGo, hs, hh, hq]
          rw [h1, h1]
          exact ih m
        · have h1 : ∀ (r : List (List Char)) m2, plGo (l :: r) m2 =
              plGo r (alSet m2 (cleanupName rawName)
                (getQty m2 (cleanupName rawName) + qty)) := by
            intro r m2
            simp [plGo, hs, hh, hq]
          rw [h1, h1]
          exact ih _

/-- C8: parsing stops at the first sideboard line, so the parsed deck is the
deck of the lines strictly before that line and nothing after it contributes;
and the concrete Arena export example parses to exactly the two main deck
cards. -/
theorem C8_sideboard_cutoff :
    (∀ t : String,
      parseDeckText t = plGo ((linesOf t).takeWhile (fun l => !isSideboardLine l)) []) ∧
    parseDeckText "4 Lightning Bolt\n4 Goblin Guide\n\nSideboard\n3 Smash to Smithereens" =
      [("Lightning Bolt", 4), ("Goblin Guide", 4)] := by
  constructor
  · intro t
    exact plGo_takeWhile (linesOf t) []
  · rfl

/-- C5: for a name present in both decks, equal quantities give options A and
B with default A and the merged quantity of deck A, unequal quantities give
options A, B and Both with default Both and the summed quantity; every output
row has positive quantity, zero rows being dropped, and the output is sorted
lexicographically by name. -/
theorem C5_merge_defaults (A B : DeckMap) (ch : ChoiceMap) (n : String)
    (hch : alGet ch n = none) (ha : 0 < getQty A n) (hb : 0 < getQty B n) :
    ((getQty A n = getQty B n →
        (computeMergedDeck A B ch).filter (fun r => r.name == n) =
          [{ name := n, qty := getQty A n, choice := some "A", options := ["A", "B"],
             qa := getQty A n, qb := getQty B n }]) ∧
     (getQty A n ≠ getQty B n →
        (computeMergedDeck A B ch).filter (fun r => r.name == n) =
          [{ name := n, qty := getQty A n + getQty B n, choice := some "Both",
             options := ["A", "B", "Both"], qa := getQty A n, qb := getQty B n }]) ∧
     (∀ r ∈ computeMergedDeck A B ch, 0 < r.qty) ∧
     (computeMergedDeck A B ch).Pairwise (fun r1 r2 => strLeb r1.name r2.name = true)) := by
  have hmem : n ∈ unionNames A B :=
    (mem_unionNames A B n).mpr (Or.inl (getQty_pos_mem_keys A n ha))
  refine ⟨?_, ?_, merged_rows_qty_pos A B ch, merged_rows_pairwise A B ch⟩
  · intro heq
    have hrow : mergeRowFor A B ch n =
        { name := n, qty := getQty A n, choice := some "A", options := ["A", "B"],
          qa := getQty A n, qb := getQty B n } := by
      have e1 : ((some "A" : Option String) == some "A") = true := by decide
      simp only [mergeRowFor, hch, jsOr]
      simp [ha, hb, heq, e1]
    rw [merged_rows_filter_name, hrow, if_pos ⟨hmem, by simpa [hrow] using ha⟩]
  · intro hne
    have hrow : mergeRowFor A B ch n =
        { name := n, qty := getQty A n + getQty B n, choice := some "Both",
          options := ["A", "B", "Both"], qa := getQty A n, qb := getQty B n } := by
      have e1 : ((some "Both" : Option String) == some "A") = false := by decide
      have e2 : ((some "Both" : Option String) == some "B") = false := by decide
      have e3 : ((some "Both" : Option String) == some "Both") = true := by decide
      simp only [mergeRowFor, hch, jsOr]
      simp [ha, hb, hne, e1, e2, e3]
    rw [merged_rows_filter_name, hrow,
      if_pos ⟨hmem, by simpa [hrow] using Nat.lt_of_lt_of_le ha (Nat.le_add_right _ _)⟩]

/-- C5 witness: the theorem applied at concrete decks with an unequal pair. -/
theorem C5_witness :
    (computeMergedDeck [("a", 2), ("b", 3)] [("a", 2), ("b", 5)] []).filter
        (fun r => r.name == "b") =
      [{ name := "b", qty := 8, choice := some "Both", options := ["A", "B", "Both"],
         qa := 3, qb := 5 }] := by
  have h := C5_merge_defaults [("a", 2), ("b", 3)] [("a", 2), ("b", 5)] [] "b"
    rfl (by decide) (by decide)
  exact h.2.1 (by decide)

theorem fetchGo_completes (net : Net) (now : Nat)
    (h : ∀ req, ∃ resp, net.bulkFetch req = Except.ok resp) :
    ∀ (chunks : List (List String)) (cache : CacheMap),
      (fetchGo net now chunks cache).1 = true := by
  intro chunks
  induction chunks with
  | nil => intro cache; rfl
  | cons chunk rest ih =>
    intro cache
    rcases h chunk with ⟨resp, hresp⟩
    simp only [fetchGo, hresp]
    exact ih _

/-- C2 counterexample: with seventy-one names the resolver makes two batches;
the bulk call of the first batch raises, and although the same transport
resolves the second-batch name when asked on its own, the pass aborts with an
empty cache and the second batch is never attempted, so a failing bulk call
for one batch does abort the resolution of the other batches. -/
theorem C2_counterexample :
    fetchCardsByNames netSplit 0 names71 [] =
      (false, ([] : CacheMap), [CallRec.bulk (names71.take 70)]) ∧
    "n70" ∈ names71 ∧
    alGet (fetchCardsByNames netSplit 0 names71 []).2.1 "n70" = none ∧
    (fetchCardsByNames netSplit 0 ["n70"] []).1 = true ∧
    (alGet (fetchCardsByNames netSplit 0 ["n70"] []).2.1 "n70").isSome = true := by
  refine ⟨rfl, by decide, rfl, rfl, rfl⟩

/-- C2 amended: failures of the single-item fallback lookups are caught and
treated as misses, so whenever every bulk call returns a response, even an
empty or malformed-shaped one, the whole pass runs to completion; only a bulk
call whose transport raises aborts the remaining batches, as the
counterexample shows. -/
theorem C2_amended_fallback_failures_tolerated (net : Net)
    (h : ∀ req, ∃ resp, net.bulkFetch req = Except.ok resp)
    (now : Nat) (names : List String) (cache : CacheMap) :
    (fetchCardsByNames net now names cache).1 = true := by
  rw [fetchCardsByNames]
  by_cases he : (names.filter (fun n => (alGet cache n).isNone)).isEmpty
  · simp [he]
  · simp only [he, if_neg, Bool.false_eq_true, if_false]
    exact fetchGo_completes net now h _ _

/-- C2 witness: the amended statement at a transport whose named endpoint
always raises and whose bulk endpoint always answers not-found. -/
theorem C2_amended_witness :
    (fetchCardsByNames
      { bulkFetch := fun req => Except.ok { data := [], not_found := req },
        namedFetch := fun _ _ => Except.error () } 0 ["a"] []).1 = true :=
  C2_amended_fallback_failures_tolerated _ (fun _ => ⟨_, rfl⟩) 0 ["a"] []

/-! Cache preservation lemmas for the resolver. -/

theorem cachePreserved_refl (now : Nat) (m : CacheMap) : cachePreserved now m m :=
  fun _ _ h => Or.inl h

theorem cachePreserved_trans {now : Nat} {m1 m2 m3 : CacheMap}
    (h1 : cachePreserved now m1 m2) (h2 : cachePreserved now m2 m3) :
    cachePreserved now m1 m3 := by
  intro k e he
  rcases h1 k e he with h | ⟨e2, he2, hc2, ht2⟩
  · exact h2 k e h
  · rcases h2 k e2 he2 with h | ⟨e3, he3, hc3, ht3⟩
    · exact Or.inr ⟨e2, h, hc2, ht2⟩
    · exact Or.inr ⟨e3, he3, hc3, ht3⟩

theorem cachePreserved_set_record (now : Nat) (m : CacheMap) (k : String) (c : CardRec) :
    cachePreserved now m (alSet m k { card := some c, ts := now }) := by
  intro k2 e he
  by_cases hk : k = k2
  · subst hk
    exact Or.inr ⟨_, alGet_alSet_self m k _, rfl, rfl⟩
  · rw [alGet_alSet_other m k k2 _ hk]
    exact Or.inl he

theorem cachePreserved_set_guarded (now : Nat) (m : CacheMap) (k : String) (e : CacheEntry)
    (hnone : alGet m k = none) : cachePreserved now m (alSet m k e) := by
  intro k2 e2 he2
  by_cases hk : k = k2
  · subst hk
    rw [hnone] at he2
    exact absurd he2 (by simp)
  · rw [alGet_alSet_other m k k2 _ hk]
    exact Or.inl he2

theorem phase1_preserves (now : Nat) :
    ∀ (data : List RawCard) (cache : CacheMap) (byC byF : List (String × RawCard)),
      cachePreserved now cache (phase1 now data cache byC byF).1 := by
  intro data
  induction data with
  | nil => intro cache byC byF; exact cachePreserved_refl now cache
  | cons c rest ih =>
    intro cache byC byF
    exact cachePreserved_trans (cachePreserved_set_record now cache _ _) (ih _ _ _)

theorem phase2_preserves (now : Nat) :
    ∀ (chunk : List String) (cache : CacheMap) (byC byF : List (String × RawCard)),
      cachePreserved now cache (phase2 now chunk cache byC byF) := by
  intro chunk
  induction chunk with
  | nil => intro cache byC byF; exact cachePreserved_refl now cache
  | cons origName rest ih =>
    intro cache byC byF
    rw [phase2]
    by_cases hs : (alGet cache origName).isSome
    · simp only [hs, if_true]
      exact ih cache byC byF
    · simp only [hs, Bool.false_eq_true, if_false]
      rcases hfind : (alGet byC (lowerStr (normalizeName origName))).or
          (alGet byF (lowerStr (normalizeName origName))) with _ | c
      · exact ih cache byC byF
      · have hnone : alGet cache origName = none := by
          rcases h2 : alGet cache origName with _ | v
          · rfl
          · rw [h2] at hs; simp at hs
        exact cachePreserved_trans (cachePreserved_set_guarded now cache origName _ hnone)
          (ih _ byC byF)

theorem phase3_preserves (net : Net) (now : Nat) (notFound : List String) :
    ∀ (chunk : List String) (cache : CacheMap),
      cachePreserved now cache (phase3 net now notFound chunk cache).1 := by
  intro chunk
  induction chunk with
  | nil => intro cache; exact cachePreserved_refl now cache
  | cons origName rest ih =>
    intro cache
    rw [phase3]
    by_cases hs : (alGet cache origName).isSome
    · simp only [hs, if_true]
      exact ih cache
    · have hnone : alGet cache origName = none := by
        rcases h2 : alGet cache origName with _ | v
        · rfl
        · rw [h2] at hs; simp at hs
      simp only [hs, Bool.false_eq_true, if_false]
      by_cases hnf : notFound.contains (lowerStr origName)
      · simp only [hnf, Bool.not_true, Bool.false_eq_true, if_false]
        rcases htv : (tryVariants net (variantsFor origName)).1 with _ | c
        · simp only [htv, hnone]
          simp only [Option.isNone_none, if_true]
          exact cachePreserved_trans (cachePreserved_set_guarded now cache origName _ hnone)
            (ih _)
        · simp only [htv]
          exact cachePreserved_trans (cachePreserved_set_guarded now cache origName _ hnone)
            (ih _)
      · simp only [hnf, Bool.not_false, if_true]
        exact ih cache

theorem processChunk_fst (net : Net) (now : Nat) (chunk : List String) (resp : BulkResp)
    (cache : CacheMap) :
    (processChunk net now chunk resp cache).1 =
      (phase3 net now (resp.not_found.map lowerStr) chunk
        (phase2 now chunk (phase1 now resp.data cache [] []).1
          (phase1 now resp.data cache [] []).2.1
          (phase1 now resp.data cache [] []).2.2)).1 := rfl

theorem processChunk_snd (net : Net) (now : Nat) (chunk : List String) (resp : BulkResp)
    (cache : CacheMap) :
    (processChunk net now chunk resp cache).2 =
      (phase3 net now (resp.not_found.map lowerStr) chunk
        (phase2 now chunk (phase1 now resp.data cache [] []).1
          (phase1 now resp.data cache [] []).2.1
          (phase1 now resp.data cache [] []).2.2)).2 := rfl

theorem fetchGo_cons_error (net : Net) (now : Nat) (chunk : List String)
    (rest : List (List String)) (cache : CacheMap) (er : Unit)
    (hr : net.bulkFetch chunk = Except.error er) :
    fetchGo net now (chunk :: rest) cache = (false, cache, [CallRec.bulk chunk]) := by
  rw [fetchGo, hr]

theorem fetchGo_cons_ok (net : Net) (now : Nat) (chunk : List String)
    (rest : List (List String)) (cache : CacheMap) (resp : BulkResp)
    (hr : net.bulkFetch chunk = Except.ok resp) :
    fetchGo net now (chunk :: rest) cache =
      ((fetchGo net now rest (processChunk net now chunk resp cache).1).1,
       (fetchGo net now rest (processChunk net now chunk resp cache).1).2.1,
       CallRec.bulk chunk :: (processChunk net now chunk resp cache).2 ++
         (fetchGo net now rest (processChunk net now chunk resp cache).1).2.2) := by
  rw [fetchGo, hr]

theorem processChunk_preserves (net : Net) (now : Nat) (chunk : List String)
    (resp : BulkResp) (cache : CacheMap) :
    cachePreserved now cache (processChunk net now chunk resp cache).1 := by
  rw [processChunk_fst]
  exact cachePreserved_trans (phase1_preserves now resp.data cache [] [])
    (cachePreserved_trans (phase2_preserves now chunk _ _ _)
      (phase3_preserves net now _ chunk _))

theorem fetchGo_preserves (net : Net) (now : Nat) :
    ∀ (chunks : List (List String)) (cache : CacheMap),
      cachePreserved now cache (fetchGo net now chunks cache).2.1 := by
  intro chunks
  induction chunks with
  | nil => intro cache; exact cachePreserved_refl now cache
  | cons chunk rest ih =>
    intro cache
    rcases hresp : net.bulkFetch chunk with e | resp
    · rw [fetchGo_cons_error net now chunk rest cache e hresp]
      exact cachePreserved_refl now cache
    · rw [fetchGo_cons_ok net now chunk rest cache resp hresp]
      exact cachePreserved_trans (processChunk_preserves net now chunk resp cache) (ih _)

theorem fresh_entry_preserved {now : Nat} {m m2 : CacheMap} {k : String}
    (hp : cachePreserved now m m2)
    (h : ∃ e, alGet m k = some e ∧ e.card.isSome = true ∧ e.ts = now) :
    ∃ e, alGet m2 k = some e ∧ e.card.isSome = true ∧ e.ts = now := by
  rcases h with ⟨e, he, hc, ht⟩
  rcases hp k e he with h2 | ⟨e2, he2, hc2, ht2⟩
  · exact ⟨e, h2, hc, ht⟩
  · exact ⟨e2, he2, hc2, ht2⟩

theorem phase1_covers (now : Nat) :
    ∀ (data : List RawCard) (cache : CacheMap) (byC byF : List (String × RawCard)),
      ∀ c ∈ data,
        ∃ e, alGet (phase1 now data cache byC byF).1 (normalizeCard c).name = some e ∧
          e.card.isSome = true ∧ e.ts = now := by
  intro data
  induction data with
  | nil => intro cache byC byF c hc; exact absurd hc (by simp)
  | cons c0 rest ih =>
    intro cache byC byF c hc
    rcases List.mem_cons.mp hc with rfl | hc2
    · rw [phase1]
      apply fresh_entry_preserved (phase1_preserves now rest _ _ _)
      exact ⟨_, alGet_alSet_self cache _ _, rfl, rfl⟩
    · exact ih _ _ _ c hc2

theorem tryVariants_log_named (net : Net) :
    ∀ vs, ∀ e ∈ (tryVariants net vs).2, ∃ k q, e = CallRec.named k q := by
  intro vs
  induction vs with
  | nil => intro e he; exact absurd he (by simp [tryVariants])
  | cons v rest ih =>
    intro e he
    rcases v with ⟨kind, q⟩
    rw [tryVariants] at he
    rcases hn : net.namedFetch kind q with _ | r
    · rw [hn] at he
      rcases List.mem_cons.mp he with rfl | he2
      · exact ⟨kind, q, rfl⟩
      · exact ih e he2
    · rcases r with _ | c
      · rw [hn] at he
        rcases List.mem_cons.mp he with rfl | he2
        · exact ⟨kind, q, rfl⟩
        · exact ih e he2
      · rw [hn] at he
        rcases List.mem_singleton.mp he with rfl
        exact ⟨kind, q, rfl⟩

theorem phase3_log_named (net : Net) (now : Nat) (notFound : List String) :
    ∀ (chunk : List String) (cache : CacheMap),
      ∀ e ∈ (phase3 net now notFound chunk cache).2, ∃ k q, e = CallRec.named k q := by
  intro chunk
  induction chunk with
  | nil => intro cache e he; exact absurd he (by simp [phase3])
  | cons origName rest ih =>
    intro cache e he
    rw [phase3] at he
    by_cases hs : (alGet cache origName).isSome
    · simp only [hs, if_true] at he
      exact ih cache e he
    · simp only [hs, Bool.false_eq_true, if_false] at he
      by_cases hnf : notFound.contains (lowerStr origName)
      · simp only [hnf, Bool.not_true, Bool.false_eq_true, if_false] at he
        rcases List.mem_append.mp he with he2 | he2
        · exact tryVariants_log_named net _ e he2
        · exact ih _ e he2
      · simp only [hnf, Bool.not_false, if_true] at he
        exact ih cache e he

theorem processChunk_covers (net : Net) (now : Nat) (chunk : List String)
    (resp : BulkResp) (cache : CacheMap) (c : RawCard) (hc : c ∈ resp.data) :
    ∃ e, alGet (processChunk net now chunk resp cache).1 (normalizeCard c).name = some e ∧
      e.card.isSome = true ∧ e.ts = now := by
  rw [processChunk_fst]
  apply fresh_entry_preserved (phase3_preserves net now _ chunk _)
  apply fresh_entry_preserved (phase2_preserves now chunk _ _ _)
  exact phase1_covers now resp.data cache [] [] c hc

theorem processChunk_log_named (net : Net) (now : Nat) (chunk : List String)
    (resp : BulkResp) (cache : CacheMap) :
    ∀ e ∈ (processChunk net now chunk resp cache).2, ∃ k q, e = CallRec.named k q := by
  rw [processChunk_snd]
  exact phase3_log_named net now _ chunk _

theorem fetchGo_bulk_covers (net : Net) (now : Nat) :
    ∀ (chunks : List (List String)) (cache : CacheMap) (req : List String) (resp : BulkResp),
      CallRec.bulk req ∈ (fetchGo net now chunks cache).2.2 →
      net.bulkFetch req = Except.ok resp →
      ∀ c ∈ resp.data,
        ∃ e, alGet (fetchGo net now chunks cache).2.1 (normalizeCard c).name = some e ∧
          e.card.isSome = true ∧ e.ts = now := by
  intro chunks
  induction chunks with
  | nil => intro cache req resp hlog; exact absurd hlog (by simp [fetchGo])
  | cons chunk rest ih =>
    intro cache req resp hlog hresp c hc
    rcases hr : net.bulkFetch chunk with er | resp0
    · rw [fetchGo_cons_error net now chunk rest cache er hr] at hlog
      have heq := List.mem_singleton.mp hlog
      have hreq : req = chunk := by injection heq
      subst hreq
      rw [hresp] at hr
      exact absurd hr (by simp)
    · rw [fetchGo_cons_ok net now chunk rest cache resp0 hr] at hlog ⊢
      rcases List.mem_cons.mp hlog with heq | hin
      · have hreq : req = chunk := by injection heq
        have hrespeq : resp0 = resp := by
          rw [hreq, hr] at hresp
          injection hresp
        apply fresh_entry_preserved (fetchGo_preserves net now rest _)
        rw [← hrespeq] at hc
        exact processChunk_covers net now chunk resp0 cache c hc
      · rcases List.mem_append.mp hin with hin2 | hin2
        · rcases processChunk_log_named net now chunk resp0 cache _ hin2 with ⟨k, q, hk⟩
          exact absurd hk (by simp)
        · exact ih _ req resp hin2 hresp c hc

/-- C10: every record returned by a bulk call that the pass issued is written
into the cache under its canonical catalog name with the timestamp of the
pass, and the entry survives to the end of the pass as a record entry, never
replaced by a tombstone; since the canonical name need not be a requested
name, a pass can create or overwrite entries for names that were never in the
requested list. -/
theorem C10_bulk_records_cached (net : Net) (now : Nat) (names : List String)
    (cache : CacheMap) (req : List String) (resp : BulkResp) (c : RawCard)
    (hlog : CallRec.bulk req ∈ (fetchCardsByNames net now names cache).2.2)
    (hresp : net.bulkFetch req = Except.ok resp)
    (hc : c ∈ resp.data) :
    ∃ e, alGet (fetchCardsByNames net now names cache).2.1 (normalizeCard c).name =
      some e ∧ e.card.isSome = true ∧ e.ts = now := by
  rw [fetchCardsByNames] at hlog ⊢
  by_cases he : (names.filter (fun n => (alGet cache n).isNone)).isEmpty
  · simp only [he, if_true] at hlog
    exact absurd hlog (by simp)
  · simp only [he, Bool.false_eq_true, if_false] at hlog ⊢
    exact fetchGo_bulk_covers net now _ cache req resp hlog hresp c hc

/-- C10 witness: a pass over the single name a against a transport whose bulk
response carries the unrequested record Zzz ends with a fresh record entry
cached under Zzz. -/
theorem C10_witness :
    ∃ e, alGet (fetchCardsByNames netExtra 3 ["a"] []).2.1 "Zzz" =
      some e ∧ e.card.isSome = true ∧ e.ts = 3 :=
  C10_bulk_records_cached netExtra 3 ["a"] [] ["a"]
    { data := [{ name := "Zzz", card_faces := none }], not_found := ["a"] }
    { name := "Zzz", card_faces := none }
    (by decide) rfl (by decide)

/-! Coverage lemmas for the idempotence of a second resolution pass. -/

theorem or_isSome_right {α : Type} (o1 o2 : Option α) (h : o2.isSome = true) :
    (o1.or o2).isSome = true := by
  cases o1 with
  | none => simpa [Option.or] using h
  | some v => rfl

theorem fetchCardsByNames_eq (net : Net) (now : Nat) (names : List String)
    (cache : CacheMap) :
    fetchCardsByNames net now names cache =
      if (names.filter (fun n => (alGet cache n).isNone)).isEmpty then (true, cache, [])
      else fetchGo net now (batch70 (names.filter (fun n => (alGet cache n).isNone))) cache :=
  rfl

theorem cachePreserved_isSome {now : Nat} {m m2 : CacheMap}
    (hp : cachePreserved now m m2) {k : String} (h : (alGet m k).isSome = true) :
    (alGet m2 k).isSome = true := by
  rcases Option.isSome_iff_exists.mp h with ⟨e, he⟩
  rcases hp k e he with h2 | ⟨e2, he2, _, _⟩
  · rw [h2]; rfl
  · rw [he2]; rfl

theorem phase1_byC_mono (now : Nat) :
    ∀ (data : List RawCard) (cache : CacheMap) (byC byF : List (String × RawCard))
      (k : String), (alGet byC k).isSome = true →
      (alGet (phase1 now data cache byC byF).2.1 k).isSome = true := by
  intro data
  induction data with
  | nil => intro cache byC byF k h; exact h
  | cons c rest ih =>
    intro cache byC byF k h
    rw [phase1]
    apply ih
    by_cases hc : lowerStr c.name == ""
    · simpa [hc] using h
    · simp only [hc, Bool.false_eq_true, if_false]
      exact alGet_isSome_alSet byC _ k c h

theorem phase1_byF_mono (now : Nat) :
    ∀ (data : List RawCard) (cache : CacheMap) (byC byF : List (String × RawCard))
      (k : String), (alGet byF k).isSome = true →
      (alGet (phase1 now data cache byC byF).2.2 k).isSome = true := by
  intro data
  induction data with
  | nil => intro cache byC byF k h; exact h
  | cons c rest ih =>
    intro cache byC byF k h
    rw [phase1]
    apply ih
    by_cases hc : lowerStr (face0Name c) == ""
    · simpa [hc] using h
    · simp only [hc, Bool.false_eq_true, if_false]
      exact alGet_isSome_alSet byF _ k c h

theorem phase1_byC_covers (now : Nat) :
    ∀ (data : List RawCard) (cache : CacheMap) (byC byF : List (String × RawCard))
      (c : RawCard), c ∈ data → lowerStr c.name ≠ "" →
      (alGet (phase1 now data cache byC byF).2.1 (lowerStr c.name)).isSome = true := by
  intro data
  induction data with
  | nil => intro cache byC byF c hc; exact absurd hc (by simp)
  | cons c0 rest ih =>
    intro cache byC byF c hc hne
    rcases List.mem_cons.mp hc with rfl | hc2
    · rw [phase1]
      apply phase1_byC_mono
      have hb : (lowerStr c.name == "") = false := by simpa using hne
      simp only [hb, Bool.false_eq_true, if_false]
      rw [alGet_alSet_self]
      rfl
    · exact ih _ _ _ c hc2 hne

theorem phase1_byF_covers (now : Nat) :
    ∀ (data : List RawCard) (cache : CacheMap) (byC byF : List (String × RawCard))
      (c : RawCard), c ∈ data → lowerStr (face0Name c) ≠ "" →
      (alGet (phase1 now data cache byC byF).2.2 (lowerStr (face0Name c))).isSome = true := by
  intro data
  induction data with
  | nil => intro cache byC byF c hc; exact absurd hc (by simp)
  | cons c0 rest ih =>
    intro cache byC byF c hc hne
    rcases List.mem_cons.mp hc with rfl | hc2
    · rw [phase1]
      apply phase1_byF_mono
      have hb : (lowerStr (face0Name c) == "") = false := by simpa using hne
      simp only [hb, Bool.false_eq_true, if_false]
      rw [alGet_alSet_self]
      rfl
    · exact ih _ _ _ c hc2 hne

theorem phase2_caches (now : Nat) :
    ∀ (chunk : List String) (cache : CacheMap) (byC byF : List (String × RawCard))
      (n : String), n ∈ chunk →
      ((alGet cache n).isSome = true ∨
        ((alGet byC (lowerStr (normalizeName n))).or
          (alGet byF (lowerStr (normalizeName n)))).isSome = true) →
      (alGet (phase2 now chunk cache byC byF) n).isSome = true := by
  intro chunk
  induction chunk with
  | nil => intro cache byC byF n hn; exact absurd hn (by simp)
  | cons x rest ih =>
    intro cache byC byF n hn hsrc
    rw [phase2]
    by_cases hs : (alGet cache x).isSome
    · simp only [hs, if_true]
      rcases List.mem_cons.mp hn with rfl | hn2
      · exact cachePreserved_isSome (phase2_preserves now rest cache byC byF) hs
      · exact ih cache byC byF n hn2 hsrc
    · simp only [hs, Bool.false_eq_true, if_false]
      rcases hfind : (alGet byC (lowerStr (normalizeName x))).or
          (alGet byF (lowerStr (normalizeName x))) with _ | c
      · rcases List.mem_cons.mp hn with rfl | hn2
        · rcases hsrc with h | h
          · exact absurd h (by simpa using hs)
          · rw [hfind] at h
            exact absurd h (by simp)
        · exact ih cache byC byF n hn2 hsrc
      · rcases List.mem_cons.mp hn with rfl | hn2
        · apply cachePreserved_isSome (phase2_preserves now rest _ byC byF)
          rw [alGet_alSet_self]
          rfl
        · apply ih _ byC byF n hn2
          rcases hsrc with h | h
          · exact Or.inl (alGet_isSome_alSet cache x n _ h)
          · exact Or.inr h

theorem phase3_caches (net : Net) (now : Nat) (notFound : List String) :
    ∀ (chunk : List String) (cache : CacheMap) (n : String), n ∈ chunk →
      ((alGet cache n).isSome = true ∨ notFound.contains (lowerStr n) = true) →
      (alGet (phase3 net now notFound chunk cache).1 n).isSome = true := by
  intro chunk
  induction chunk with
  | nil => intro cache n hn; exact absurd hn (by simp)
  | cons x rest ih =>
    intro cache n hn hsrc
    rw [phase3]
    by_cases hs : (alGet cache x).isSome
    · simp only [hs, if_true]
      rcases List.mem_cons.mp hn with rfl | hn2
      · exact cachePreserved_isSome (phase3_preserves net now notFound rest cache) hs
      · exact ih cache n hn2 hsrc
    · have hnone : alGet cache x = none := by
        rcases h2 : alGet cache x with _ | v
        · rfl
        · rw [h2] at hs; simp at hs
      simp only [hs, Bool.false_eq_true, if_false]
      by_cases hnf : notFound.contains (lowerStr x)
      · simp only [hnf, Bool.not_true, Bool.false_eq_true, if_false]
        rcases htv : (tryVariants net (variantsFor x)).1 with _ | c
        · simp only [htv, hnone, Option.isNone_none, if_true]
          rcases List.mem_cons.mp hn with rfl | hn2
          · apply cachePreserved_isSome (phase3_preserves net now notFound rest _)
            rw [alGet_alSet_self]
            rfl
          · apply ih _ n hn2
            rcases hsrc with h | h
            · exact Or.inl (alGet_isSome_alSet cache x n _ h)
            · exact Or.inr h
        · simp only [htv]
          rcases List.mem_cons.mp hn with rfl | hn2
          · apply cachePreserved_isSome (phase3_preserves net now notFound rest _)
            rw [alGet_alSet_self]
            rfl
          · apply ih _ n hn2
            rcases hsrc with h | h
            · exact Or.inl (alGet_isSome_alSet cache x n _ h)
            · exact Or.inr h
      · simp only [hnf, Bool.not_false, if_true]
        rcases List.mem_cons.mp hn with rfl | hn2
        · rcases hsrc with h | h
          · exact absurd h (by simpa using hs)
          · exact absurd h hnf
        · exact ih cache n hn2 hsrc

theorem processChunk_caches (net : Net) (now : Nat) (chunk : List String)
    (resp : BulkResp) (cache : CacheMap)
    (hwfc : ∀ n, n ∈ chunk →
      lowerStr n ∈ resp.not_found.map lowerStr ∨
      (∃ c, c ∈ resp.data ∧
        ((normalizeCard c).name = n ∨
         (lowerStr c.name ≠ "" ∧ lowerStr c.name = lowerStr (normalizeName n)) ∨
         (lowerStr (face0Name c) ≠ "" ∧
           lowerStr (face0Name c) = lowerStr (normalizeName n))))) :
    ∀ n ∈ chunk, (alGet (processChunk net now chunk resp cache).1 n).isSome = true := by
  intro n hn
  rw [processChunk_fst]
  rcases hwfc n hn with hnf | ⟨c, hc, hmatch⟩
  · apply phase3_caches net now _ chunk _ n hn
    right
    simpa using hnf
  · apply phase3_caches net now _ chunk _ n hn
    left
    rcases hmatch with hm | ⟨hne, hm⟩ | ⟨hne, hm⟩
    · apply phase2_caches now chunk _ _ _ n hn
      left
      rcases phase1_covers now resp.data cache [] [] c hc with ⟨e, he, _, _⟩
      rw [hm] at he
      rw [he]
      rfl
    · apply phase2_caches now chunk _ _ _ n hn
      right
      have h1 := phase1_byC_covers now resp.data cache [] [] c hc hne
      rw [hm] at h1
      rcases Option.isSome_iff_exists.mp h1 with ⟨v, hv⟩
      rw [hv]
      rfl
    · apply phase2_caches now chunk _ _ _ n hn
      right
      have h1 := phase1_byF_covers now resp.data cache [] [] c hc hne
      rw [hm] at h1
      exact or_isSome_right _ _ h1

theorem fetchGo_caches (net : Net) (now : Nat) (hwf : netWellFormed net) :
    ∀ (chunks : List (List String)) (cache : CacheMap),
      (fetchGo net now chunks cache).1 = true →
      ∀ chunk, chunk ∈ chunks → ∀ n ∈ chunk,
        (alGet (fetchGo net now chunks cache).2.1 n).isSome = true := by
  intro chunks
  induction chunks with
  | nil => intro cache hdone chunk hchunk; exact absurd hchunk (by simp)
  | cons chunk0 rest ih =>
    intro cache hdone chunk hchunk n hn
    rcases hr : net.bulkFetch chunk0 with er | resp
    · rw [fetchGo_cons_error net now chunk0 rest cache er hr] at hdone
      exact absurd hdone (by simp)
    · rw [fetchGo_cons_ok net now chunk0 rest cache resp hr] at hdone ⊢
      rcases List.mem_cons.mp hchunk with rfl | hchunk2
      · apply cachePreserved_isSome (fetchGo_preserves net now rest _)
        exact processChunk_caches net now chunk resp cache
          (fun m hm => hwf chunk resp hr m hm) n hn
      · exact ih _ hdone chunk hchunk2 n hn

theorem chunks70F_flatten :
    ∀ (f : Nat) (l : List String), l.length ≤ f → (chunks70F f l).flatten = l := by
  intro f
  induction f with
  | zero =>
    intro l hl
    have : l = [] := List.length_eq_zero.mp (Nat.le_zero.mp hl)
    subst this
    rfl
  | succ f ih =>
    intro l hl
    cases l with
    | nil => rfl
    | cons x xs =>
      rw [chunks70F, List.flatten_cons]
      have hlen : ((x :: xs).drop 70).length ≤ f := by
        rw [List.length_drop]
        simp only [List.length_cons] at hl ⊢
        omega
      rw [ih _ hlen]
      exact List.take_append_drop 70 (x :: xs)

theorem batch70_flatten (l : List String) : (batch70 l).flatten = l :=
  chunks70F_flatten l.length l (Nat.le_refl _)

/-- C3: a resolution pass that ran to completion against a transport obeying
the bulk contract leaves every requested name with a cache entry, tombstones
included, so a second pass over the same name list filters every name out
before any lookup and issues zero network calls, returning the cache
unchanged. -/
theorem C3_second_pass_no_calls (net net2 : Net) (now now2 : Nat) (names : List String)
    (cache : CacheMap) (hwf : netWellFormed net)
    (hdone : (fetchCardsByNames net now names cache).1 = true) :
    fetchCardsByNames net2 now2 names (fetchCardsByNames net now names cache).2.1 =
      (true, (fetchCardsByNames net now names cache).2.1, []) := by
  have hall : ∀ n ∈ names,
      (alGet (fetchCardsByNames net now names cache).2.1 n).isSome = true := by
    intro n hn
    rw [fetchCardsByNames_eq] at hdone ⊢
    by_cases he : (names.filter (fun n => (alGet cache n).isNone)).isEmpty
    · simp only [he, if_true]
      have hnil : names.filter (fun n => (alGet cache n).isNone) = [] :=
        List.isEmpty_iff.mp he
      have hni := List.filter_eq_nil_iff.mp hnil n hn
      show (alGet cache n).isSome = true
      rcases h2 : alGet cache n with _ | v
      · rw [h2] at hni
        exact absurd rfl hni
      · rfl
    · simp only [he, Bool.false_eq_true, if_false] at hdone ⊢
      by_cases hc : (alGet cache n).isSome
      · exact cachePreserved_isSome (fetchGo_preserves net now _ cache) hc
      · have hmemf : n ∈ names.filter (fun n => (alGet cache n).isNone) := by
          rw [List.mem_filter]
          refine ⟨hn, ?_⟩
          rcases h2 : alGet cache n with _ | v
          · rfl
          · rw [h2] at hc; simp at hc
        have hjoin : n ∈ (batch70 (names.filter (fun n => (alGet cache n).isNone))).flatten := by
          rw [batch70_flatten]
          exact hmemf
        rcases List.mem_flatten.mp hjoin with ⟨chunk, hchunk, hnchunk⟩
        exact fetchGo_caches net now hwf _ cache hdone chunk hchunk n hnchunk
  have hnil2 : names.filter
      (fun n => (alGet (fetchCardsByNames net now names cache).2.1 n).isNone) = [] := by
    rw [List.filter_eq_nil_iff]
    intro n hn
    have hs := hall n hn
    rcases h2 : alGet (fetchCardsByNames net now names cache).2.1 n with _ | v
    · rw [h2] at hs
      exact absurd hs (by simp)
    · simp
  rw [fetchCardsByNames_eq, hnil2]
  rfl

/-! Helper lemmas for the export and reparse round trip. -/

theorem mem_keys_alSet {α : Type} (m : List (String × α)) (k k2 : String) (v : α) :
    k2 ∈ keysOf (alSet m k v) ↔ k2 ∈ keysOf m ∨ k2 = k := by
  induction m with
  | nil => simp [alSet, keysOf]
  | cons p rest ih =>
    rcases p with ⟨k3, v3⟩
    by_cases hp : k3 = k
    · rw [show alSet ((k3, v3) :: rest) k v = (k, v) :: rest by simp [alSet, hp]]
      rw [show keysOf ((k, v) :: rest) = k :: keysOf rest from rfl]
      rw [show keysOf ((k3, v3) :: rest) = k3 :: keysOf rest from rfl]
      subst hp
      simp only [List.mem_cons]
      tauto
    · rw [show alSet ((k3, v3) :: rest) k v = (k3, v3) :: alSet rest k v by
        simp [alSet, hp]]
      rw [show keysOf ((k3, v3) :: alSet rest k v) = k3 :: keysOf (alSet rest k v) from rfl]
      rw [show keysOf ((k3, v3) :: rest) = k3 :: keysOf rest from rfl]
      simp only [List.mem_cons]
      rw [ih]
      tauto

theorem nodup_keys_alSet {α : Type} (m : List (String × α)) (k : String) (v : α)
    (h : (keysOf m).Nodup) : (keysOf (alSet m k v)).Nodup := by
  induction m with
  | nil => simp [alSet, keysOf]
  | cons p rest ih =>
    rcases p with ⟨k3, v3⟩
    rw [keysOf, List.map_cons] at h
    rcases List.nodup_cons.mp h with ⟨hk3, hrest⟩
    by_cases hp : k3 = k
    · rw [show alSet ((k3, v3) :: rest) k v = (k, v) :: rest by simp [alSet, hp]]
      rw [keysOf, List.map_cons]
      refine List.nodup_cons.mpr ⟨?_, hrest⟩
      rw [← hp]
      exact hk3
    · rw [show alSet ((k3, v3) :: rest) k v = (k3, v3) :: alSet rest k v by simp [alSet, hp]]
      rw [keysOf, List.map_cons]
      refine List.nodup_cons.mpr ⟨?_, ih hrest⟩
      intro hmem
      rcases (mem_keys_alSet rest k k3 v).mp hmem with h2 | h2
      · exact hk3 h2
      · exact hp h2

theorem plGo_keys_nodup :
    ∀ (lines : List (List Char)) (m : DeckMap), (keysOf m).Nodup →
      (keysOf (plGo lines m)).Nodup := by
  intro lines
  induction lines with
  | nil => intro m h; exact h
  | cons l rest ih =>
    intro m h
    rw [plGo]
    by_cases hs : isSideboardLine l
    · simp only [hs, if_true]
      exact h
    · simp only [hs, Bool.false_eq_true, if_false]
      by_cases hh : isHeaderLine l
      · simp only [hh, if_true]
        exact ih m h
      · simp only [hh, Bool.false_eq_true, if_false]
        rcases hq : parseQtyName l with _ | p
        · exact ih m h
        · exact ih _ (nodup_keys_alSet m _ _ h)

theorem parse_keys_nodup (t : String) : (keysOf (parseDeckText t)).Nodup :=
  plGo_keys_nodup (linesOf t) [] (by simp [keysOf])

theorem alGet_mem_of_eq_some {α : Type} (m : List (String × α)) (k : String) (v : α)
    (h : alGet m k = some v) : (k, v) ∈ m := by
  induction m with
  | nil => simp [alGet] at h
  | cons p rest ih =>
    rcases p with ⟨k2, v2⟩
    rw [alGet_cons] at h
    by_cases hk : k2 = k
    · rw [if_pos hk] at h
      subst hk
      have : v2 = v := by injection h
      subst this
      exact List.mem_cons_self _ _
    · rw [if_neg hk] at h
      exact List.mem_cons_of_mem _ (ih h)

theorem alGet_eq_none_of_not_mem_keys {α : Type} (m : List (String × α)) (k : String)
    (h : k ∉ keysOf m) : alGet m k = none := by
  rcases h2 : alGet m k with _ | v
  · rfl
  · exfalso
    apply h
    rw [← alGet_isSome_iff_mem_keys, h2]
    rfl

theorem alGet_map_graph (f : String → Nat) :
    ∀ (names : List String) (nm : String),
      alGet (names.map (fun n => (n, f n))) nm =
        if nm ∈ names then some (f nm) else none := by
  intro names
  induction names with
  | nil => intro nm; simp [alGet]
  | cons n rest ih =>
    intro nm
    rw [List.map_cons, alGet_cons]
    by_cases h : n = nm
    · subst h
      simp
    · rw [if_neg h, ih]
      by_cases h2 : nm ∈ rest
      · simp [h2]
      · have : ¬(nm ∈ n :: rest) := by
          intro hc
          rcases List.mem_cons.mp hc with hc | hc
          · exact h hc.symm
          · exact h2 hc
        simp [h2, this]

theorem snGo_no_newline :
    ∀ (l cur : List Char), (∀ c ∈ l, c ≠ '\n') →
      snGo cur l = if cur ++ l = [] then [] else [cur ++ l] := by
  intro l
  induction l with
  | nil =>
    intro cur hl
    rw [snGo]
    by_cases h : cur = []
    · simp [h]
    · simp [h]
  | cons c rest ih =>
    intro cur hl
    rw [snGo]
    have hc : ¬(c = '\n') := hl c (List.mem_cons_self _ _)
    simp only [hc, if_false]
    rw [ih (cur ++ [c]) (fun c2 hc2 => hl c2 (List.mem_cons_of_mem _ hc2))]
    simp

theorem snGo_line_break :
    ∀ (l : List Char) (cur : List Char) (tail : List Char), (∀ c ∈ l, c ≠ '\n') →
      cur ++ l ≠ [] →
      snGo cur (l ++ '\n' :: tail) = (cur ++ l) :: snGo [] tail := by
  intro l
  induction l with
  | nil =>
    intro cur tail hl hne
    rw [List.nil_append]
    rw [show snGo cur ('\n' :: tail) =
        if cur = [] then snGo [] tail else cur :: snGo [] tail from by
      rw [snGo]; simp]
    rw [if_neg (show ¬cur = [] from by simpa using hne)]
    simp
  | cons c rest ih =>
    intro cur tail hl hne
    rw [List.cons_append, snGo]
    have hc : ¬(c = '\n') := hl c (List.mem_cons_self _ _)
    simp only [hc, if_false]
    rw [ih (cur ++ [c]) tail (fun c2 hc2 => hl c2 (List.mem_cons_of_mem _ hc2)) (by simp)]
    simp

theorem splitNL_joinLines :
    ∀ (ls : List (List Char)),
      (∀ l ∈ ls, l ≠ [] ∧ ∀ c ∈ l, c ≠ '\n') →
      splitNL (joinLines ls) = ls := by
  intro ls
  induction ls with
  | nil => intro h; rfl
  | cons l rest ih =>
    intro h
    rcases h l (List.mem_cons_self _ _) with ⟨hne, hnl⟩
    cases rest with
    | nil =>
      rw [joinLines, splitNL, snGo_no_newline l [] hnl]
      simp [hne]
    | cons l2 rest2 =>
      rw [joinLines, splitNL, snGo_line_break l [] (joinLines (l2 :: rest2)) hnl
        (by simpa using hne)]
      rw [List.nil_append]
      have := ih (fun l3 h3 => h l3 (List.mem_cons_of_mem _ h3))
      rw [splitNL] at this
      rw [this]

theorem map_id_of_no_cr :
    ∀ (l : List Char), (∀ c ∈ l, c ≠ '\r') →
      l.map (fun c => if c = '\r' then '\n' else c) = l := by
  intro l
  induction l with
  | nil => intro h; rfl
  | cons c rest ih =>
    intro h
    rw [List.map_cons]
    have hc : ¬(c = '\r') := h c (List.mem_cons_self _ _)
    rw [if_neg hc, ih (fun c2 h2 => h c2 (List.mem_cons_of_mem _ h2))]

theorem joinLines_no_cr :
    ∀ (ls : List (List Char)), (∀ l ∈ ls, ∀ c ∈ l, c ≠ '\r') →
      ∀ c ∈ joinLines ls, c ≠ '\r' := by
  intro ls
  induction ls with
  | nil => intro h c hc; exact absurd hc (by simp [joinLines])
  | cons l rest ih =>
    intro h c hc
    cases rest with
    | nil => exact h l (List.mem_cons_self _ _) c hc
    | cons l2 rest2 =>
      rw [joinLines] at hc
      rcases List.mem_append.mp hc with hc2 | hc2
      · exact h l (List.mem_cons_self _ _) c hc2
      · rcases List.mem_cons.mp hc2 with rfl | hc3
        · simp
        · exact ih (fun l3 h3 => h l3 (List.mem_cons_of_mem _ h3)) c hc3

theorem linesOf_export :
    ∀ (ls : List (List Char)),
      (∀ l ∈ ls, l ≠ [] ∧ trimBoth l = l ∧ ∀ c ∈ l, c ≠ '\n' ∧ c ≠ '\r') →
      linesOf (String.mk (joinLines ls)) = ls := by
  intro ls h
  rw [linesOf]
  have hdata : (String.mk (joinLines ls)).data = joinLines ls := rfl
  rw [hdata]
  rw [map_id_of_no_cr (joinLines ls)
    (joinLines_no_cr ls (fun l hl c hc => ((h l hl).2.2 c hc).2))]
  rw [splitNL_joinLines ls (fun l hl => ⟨(h l hl).1, fun c hc => ((h l hl).2.2 c hc).1⟩)]
  rw [List.map_congr_left (fun l hl => (h l hl).2.1)]
  rw [show List.map (fun l => l) ls = ls from by simp]
  rw [List.filter_eq_self.mpr]
  intro l hl
  exact decide_eq_true (h l hl).1

theorem getQty_pos_of_mem_keys (d : DeckMap) (hpos : ∀ p ∈ d, 0 < p.2) (n : String)
    (hn : n ∈ keysOf d) : 0 < getQty d n := by
  have hsome : (alGet d n).isSome = true := (alGet_isSome_iff_mem_keys d n).mpr hn
  rcases Option.isSome_iff_exists.mp hsome with ⟨q, hq⟩
  have hmem := alGet_mem_of_eq_some d n q hq
  have := hpos (n, q) hmem
  rw [getQty, hq]
  exact this

theorem alGet_eq_getQty_of_mem (d : DeckMap) (n : String) (hn : n ∈ keysOf d) :
    alGet d n = some (getQty d n) := by
  have hsome : (alGet d n).isSome = true := (alGet_isSome_iff_mem_keys d n).mpr hn
  rcases Option.isSome_iff_exists.mp hsome with ⟨q, hq⟩
  rw [hq, getQty, hq]
  rfl

theorem mergeRowFor_single (d : DeckMap) (n : String) (hq : 0 < getQty d n) :
    mergeRowFor d [] [] n =
      { name := n, qty := getQty d n, choice := some "A", options := ["A"],
        qa := getQty d n, qb := 0 } := by
  have h0 : getQty ([] : DeckMap) n = 0 := rfl
  have hnone : alGet ([] : ChoiceMap) n = none := rfl
  have e1 : ((some "A" : Option String) == some "A") = true := by decide
  simp only [mergeRowFor, h0, hnone, jsOr]
  simp [hq, e1]

theorem merged_single_deck (d : DeckMap) (hpos : ∀ p ∈ d, 0 < p.2) :
    computeMergedDeck d [] [] = (unionNames d []).map (fun n =>
      { name := n, qty := getQty d n, choice := some "A", options := ["A"],
        qa := getQty d n, qb := 0 }) := by
  rw [computeMergedDeck]
  have hmemk : ∀ n ∈ unionNames d [], n ∈ keysOf d := by
    intro n hn
    rcases (mem_unionNames d [] n).mp hn with h | h
    · exact h
    · exact absurd h (by simp [keysOf])
  rw [List.map_congr_left (fun n hn =>
    mergeRowFor_single d n (getQty_pos_of_mem_keys d hpos n (hmemk n hn)))]
  rw [List.filter_eq_self.mpr]
  intro r hr
  rcases List.mem_map.mp hr with ⟨n, hn, rfl⟩
  exact decide_eq_true (getQty_pos_of_mem_keys d hpos n (hmemk n hn))

theorem lineRoundTrips_facts (n : String) (q : Nat) (h : lineRoundTrips n q = true) :
    exportLine n q ≠ [] ∧ trimBoth (exportLine n q) = exportLine n q ∧
      ∀ c ∈ exportLine n q, c ≠ '\n' ∧ c ≠ '\r' := by
  rw [lineRoundTrips] at h
  rcases Bool.and_eq_true_iff.mp h with ⟨h1, _⟩
  rcases Bool.and_eq_true_iff.mp h1 with ⟨h2, _⟩
  rcases Bool.and_eq_true_iff.mp h2 with ⟨h3, _⟩
  rcases Bool.and_eq_true_iff.mp h3 with ⟨h4, htrim⟩
  rcases Bool.and_eq_true_iff.mp h4 with ⟨hne, hall⟩
  refine ⟨of_decide_eq_true hne, by simpa using htrim, ?_⟩
  intro c hc
  have := List.all_eq_true.mp hall c hc
  rcases Bool.and_eq_true_iff.mp this with ⟨ha, hb⟩
  exact ⟨by simpa using ha, by simpa using hb⟩

theorem plGo_export_line (n : String) (q : Nat) (hrt : lineRoundTrips n q = true)
    (rest : List (List Char)) (m : DeckMap) :
    plGo (exportLine n q :: rest) m = plGo rest (alSet m n (getQty m n + q)) := by
  have h := hrt
  rw [lineRoundTrips] at h
  rcases Bool.and_eq_true_iff.mp h with ⟨h1, hmatch⟩
  rcases Bool.and_eq_true_iff.mp h1 with ⟨h2, hhead⟩
  rcases Bool.and_eq_true_iff.mp h2 with ⟨h3, hside⟩
  have hsideF : isSideboardLine (exportLine n q) = false := by
    rcases hv : isSideboardLine (exportLine n q)
    · rfl
    · rw [hv] at hside
      exact absurd hside (by simp)
  have hheadF : isHeaderLine (exportLine n q) = false := by
    rcases hv : isHeaderLine (exportLine n q)
    · rfl
    · rw [hv] at hhead
      exact absurd hhead (by simp)
  rcases hq : parseQtyName (exportLine n q) with _ | p
  · rw [hq] at hmatch
    exact absurd hmatch (by simp)
  · rw [hq] at hmatch
    rcases Bool.and_eq_true_iff.mp hmatch with ⟨hq1, hq2⟩
    have hq1e : p.1 = q := by simpa using hq1
    have hq2e : cleanupName p.2 = n := by simpa using hq2
    rw [plGo, hsideF]
    simp only [Bool.false_eq_true, if_false]
    rw [hheadF]
    simp only [Bool.false_eq_true, if_false]
    rw [hq]
    rcases p with ⟨q0, raw⟩
    simp only at hq1e hq2e
    show plGo rest (alSet m (cleanupName raw) (getQty m (cleanupName raw) + q0)) =
      plGo rest (alSet m n (getQty m n + q))
    rw [hq1e, hq2e]

theorem plGo_graph :
    ∀ (pairs : List (String × Nat)),
      (keysOf pairs).Nodup → (∀ p ∈ pairs, lineRoundTrips p.1 p.2 = true) →
      ∀ (m : DeckMap) (nm : String),
        alGet (plGo (pairs.map (fun p => exportLine p.1 p.2)) m) nm =
          match alGet pairs nm with
          | some q => some (getQty m nm + q)
          | none => alGet m nm := by
  intro pairs
  induction pairs with
  | nil =>
    intro _ _ m nm
    simp [plGo, alGet]
  | cons p rest ih =>
    intro hnodup hrt m nm
    rcases p with ⟨n, q⟩
    rw [keysOf, List.map_cons] at hnodup
    rcases List.nodup_cons.mp hnodup with ⟨hn, hrest⟩
    rw [List.map_cons, plGo_export_line n q (hrt (n, q) (List.mem_cons_self _ _)) _ m]
    rw [ih hrest (fun p2 hp2 => hrt p2 (List.mem_cons_of_mem _ hp2)) _ nm]
    rw [alGet_cons]
    by_cases hnm : n = nm
    · subst hnm
      rw [if_pos rfl, alGet_eq_none_of_not_mem_keys rest n hn]
      show alGet (alSet m n (getQty m n + q)) n = some (getQty m n + q)
      rw [alGet_alSet_self]
    · rw [if_neg hnm]
      rcases h2 : alGet rest nm with _ | q2
      · show alGet (alSet m n (getQty m n + q)) nm = alGet m nm
        exact alGet_alSet_other m n nm _ hnm
      · show some (getQty (alSet m n (getQty m n + q)) nm + q2) =
          some (getQty m nm + q2)
        rw [getQty, alGet_alSet_other m n nm _ hnm, getQty]

/-- C4 counterexample: the zero-quantity line parses to an entry with
quantity zero, the merged deck of that parse drops the zero row, the export
is empty, and reparsing it gives the empty multiset, so the round trip does
not reproduce the parsed name-to-quantity mapping. -/
theorem C4_counterexample :
    parseDeckText "0 Foo" = [("Foo", 0)] ∧
    computeMergedDeck (parseDeckText "0 Foo") [] [] = [] ∧
    exportRows (computeMergedDeck (parseDeckText "0 Foo") [] []) = "" ∧
    parseDeckText (exportRows (computeMergedDeck (parseDeckText "0 Foo") [] [])) = [] ∧
    alGet (parseDeckText (exportRows (computeMergedDeck (parseDeckText "0 Foo") [] [])))
        "Foo" ≠ alGet (parseDeckText "0 Foo") "Foo" := by
  refine ⟨rfl, rfl, rfl, rfl, by decide⟩

/-- C4 amended: the round trip holds for exactly the inputs whose parsed
entries are export-stable: when every parsed quantity is positive and every
parsed entry reparses from its exported line to itself, parsing the text
export of the merge of the parsed deck reproduces the same name-to-quantity
mapping. Without these conditions the round trip fails, as the zero-quantity
counterexample shows, and likewise for names that the line cleanup would
strip again. -/
theorem C4_amended_roundtrip (t : String)
    (hpos : ∀ p ∈ parseDeckText t, 0 < p.2)
    (hrt : ∀ p ∈ parseDeckText t, lineRoundTrips p.1 p.2 = true) :
    ∀ nm, alGet (parseDeckText (exportRows (computeMergedDeck (parseDeckText t) [] []))) nm
        = alGet (parseDeckText t) nm := by
  intro nm
  rw [merged_single_deck (parseDeckText t) hpos]
  have hmemk : ∀ n ∈ unionNames (parseDeckText t) [], n ∈ keysOf (parseDeckText t) := by
    intro n hn
    rcases (mem_unionNames (parseDeckText t) [] n).mp hn with h | h
    · exact h
    · exact absurd h (by simp [keysOf])
  have hpairmem : ∀ n ∈ unionNames (parseDeckText t) [],
      (n, getQty (parseDeckText t) n) ∈ parseDeckText t := by
    intro n hn
    exact alGet_mem_of_eq_some _ _ _ (alGet_eq_getQty_of_mem _ n (hmemk n hn))
  have hrows : ((unionNames (parseDeckText t) []).map (fun n =>
      ({ name := n, qty := getQty (parseDeckText t) n, choice := some "A",
         options := ["A"], qa := getQty (parseDeckText t) n, qb := 0 } : MergeRow))).map
        (fun r => exportLine r.name r.qty) =
      ((unionNames (parseDeckText t) []).map
        (fun n => (n, getQty (parseDeckText t) n))).map (fun p => exportLine p.1 p.2) := by
    rw [List.map_map, List.map_map]
    rfl
  rw [show exportRows ((unionNames (parseDeckText t) []).map (fun n =>
      ({ name := n, qty := getQty (parseDeckText t) n, choice := some "A",
         options := ["A"], qa := getQty (parseDeckText t) n, qb := 0 } : MergeRow))) =
      String.mk (joinLines (((unionNames (parseDeckText t) []).map
        (fun n => (n, getQty (parseDeckText t) n))).map
          (fun p => exportLine p.1 p.2))) from by
    rw [exportRows, hrows]]
  rw [show parseDeckText (String.mk (joinLines (((unionNames (parseDeckText t) []).map
      (fun n => (n, getQty (parseDeckText t) n))).map (fun p => exportLine p.1 p.2)))) =
      plGo (linesOf (String.mk (joinLines (((unionNames (parseDeckText t) []).map
        (fun n => (n, getQty (parseDeckText t) n))).map (fun p => exportLine p.1 p.2))))) []
      from rfl]
  rw [linesOf_export _ (by
    intro l hl
    rcases List.mem_map.mp hl with ⟨p2, hp2, rfl⟩
    rcases List.mem_map.mp hp2 with ⟨n, hn, rfl⟩
    exact lineRoundTrips_facts n _ (hrt _ (hpairmem n hn)))]
  have hkeyseq : keysOf ((unionNames (parseDeckText t) []).map
      (fun n => (n, getQty (parseDeckText t) n))) = unionNames (parseDeckText t) [] := by
    rw [keysOf, List.map_map]
    rw [show List.map ((fun p => (p : String × Nat).1) ∘
        fun n => (n, getQty (parseDeckText t) n)) (unionNames (parseDeckText t) []) =
        List.map (fun a => a) (unionNames (parseDeckText t) []) from
      List.map_congr_left (fun a _ => rfl)]
    simp
  have hkeyspairs : (keysOf ((unionNames (parseDeckText t) []).map
      (fun n => (n, getQty (parseDeckText t) n)))).Nodup := by
    rw [hkeyseq]
    exact nodup_unionNames (parseDeckText t) []
  rw [plGo_graph _ hkeyspairs (by
    intro p2 hp2
    rcases List.mem_map.mp hp2 with ⟨n, hn, rfl⟩
    exact hrt _ (hpairmem n hn)) [] nm]
  rw [alGet_map_graph]
  by_cases hmem : nm ∈ unionNames (parseDeckText t) []
  · rw [if_pos hmem]
    rw [alGet_eq_getQty_of_mem _ nm (hmemk nm hmem)]
    show some (getQty ([] : DeckMap) nm + getQty (parseDeckText t) nm) =
      some (getQty (parseDeckText t) nm)
    rw [show getQty ([] : DeckMap) nm = 0 from rfl, Nat.zero_add]
  · rw [if_neg hmem]
    have : nm ∉ keysOf (parseDeckText t) := by
      intro hc
      exact hmem ((mem_unionNames (parseDeckText t) [] nm).mpr (Or.inl hc))
    rw [alGet_eq_none_of_not_mem_keys _ nm this]
    rfl

/-- C4 witness: the amended round trip at a concrete two-line deck. -/
theorem C4_witness :
    alGet (parseDeckText (exportRows (computeMergedDeck
        (parseDeckText "2 Foo\n3 Bar") [] []))) "Foo" =
      alGet (parseDeckText "2 Foo\n3 Bar") "Foo" :=
  C4_amended_roundtrip "2 Foo\n3 Bar" (by decide) (by decide) "Foo"

/-- C3 witness: the theorem at a transport that reports every identifier as
not found, so the single name is tombstoned by the first pass and the second
pass issues no calls. -/
theorem C3_witness :
    fetchCardsByNames netMiss 7 ["a"] (fetchCardsByNames netMiss 5 ["a"] []).2.1 =
      (true, (fetchCardsByNames netMiss 5 ["a"] []).2.1, []) := by
  apply C3_second_pass_no_calls netMiss netMiss 5 7 ["a"] []
  · intro req resp h n hn
    have hresp : resp = { data := [], not_found := req } := by
      have h2 : Except.ok (ε := Unit) { data := [], not_found := req } = Except.ok resp := h
      injection h2 with h3
      exact h3.symm
    subst hresp
    left
    exact List.mem_map_of_mem lowerStr hn
  · rfl

/-! Character facts and machine equations for the normalizer proofs. -/

theorem slash_not_ws : isWS '/' = false := by decide

theorem space_ws : isWS ' ' = true := by decide

theorem ws_ne_slash {c : Char} (h : isWS c = true) : ¬(c = '/') := by
  intro he
  rw [he] at h
  exact absurd h (by decide)

theorem ws_ne_space_ne {c : Char} (h : isWS c = false) : ¬(c = ' ') := by
  intro he
  rw [he] at h
  exact absurd h (by decide)

theorem ssGo_nil (skip : Bool) (pend : List Char) : ssGo skip pend [] = pend := rfl

theorem ssGo_sep (skip : Bool) (pend rest2 : List Char) :
    ssGo skip pend ('/' :: '/' :: rest2) =
      ' ' :: '/' :: '/' :: ' ' :: ssGo true [] rest2 := by
  simp [ssGo]

theorem ssGo_ws_cons (skip : Bool) (pend : List Char) (c : Char) (rest : List Char)
    (hws : isWS c = true) :
    ssGo skip pend (c :: rest) =
      if skip then ssGo true [] rest else ssGo false (pend ++ [c]) rest := by
  cases rest with
  | nil =>
    simp only [ssGo]
    rw [if_pos hws]
  | cons c2 rest2 =>
    simp only [ssGo]
    rw [if_neg (fun h => ws_ne_slash hws h.1), if_pos hws]

theorem ssGo_other (skip : Bool) (pend : List Char) (c : Char) (rest : List Char)
    (hnw : isWS c = false) (hns : ¬(c = '/' ∧ rest.head? = some '/')) :
    ssGo skip pend (c :: rest) = pend ++ c :: ssGo false [] rest := by
  cases rest with
  | nil =>
    simp only [ssGo]
    rw [if_neg (by rw [hnw]; exact Bool.false_ne_true)]
  | cons c2 rest2 =>
    simp only [ssGo]
    rw [if_neg (fun h => hns ⟨h.1, by simp [h.2]⟩)]
    rw [if_neg (by rw [hnw]; exact Bool.false_ne_true)]

theorem ssGo_skip_eq (pend : List Char) (d : Char) (r : List Char)
    (hnw : isWS d = false) :
    ssGo true pend (d :: r) = ssGo false pend (d :: r) := by
  cases r with
  | nil =>
    simp only [ssGo]
    rw [hnw]
    simp
  | cons c2 rest2 =>
    simp only [ssGo]
    by_cases h : d = '/' ∧ c2 = '/'
    · rw [if_pos h, if_pos h]
    · rw [if_neg h, if_neg h, hnw]
      simp

theorem wsGo_nil (pend : List Char) : wsGo pend [] = emitWS pend := rfl

theorem wsGo_ws (pend : List Char) (c : Char) (rest : List Char) (hws : isWS c = true) :
    wsGo pend (c :: rest) = wsGo (pend ++ [c]) rest := by
  simp only [wsGo]
  rw [if_pos hws]

theorem wsGo_nonws (pend : List Char) (c : Char) (rest : List Char) (hnw : isWS c = false) :
    wsGo pend (c :: rest) = emitWS pend ++ c :: wsGo [] rest := by
  simp only [wsGo]
  rw [if_neg (by rw [hnw]; exact Bool.false_ne_true)]

theorem emitWS_nil : emitWS [] = [] := rfl

theorem emitWS_single (c : Char) : emitWS [c] = [c] := rfl

theorem emitWS_long (a b : Char) (r : List Char) : emitWS (a :: b :: r) = [' '] := rfl

theorem csGo_nil (pend : Nat) : csGo pend [] = emitSlashes pend := rfl

theorem csGo_slash (pend : Nat) (rest : List Char) :
    csGo pend ('/' :: rest) = csGo (pend + 1) rest := by
  simp [csGo]

theorem csGo_other (pend : Nat) (c : Char) (rest : List Char) (h : ¬(c = '/')) :
    csGo pend (c :: rest) = emitSlashes pend ++ c :: csGo 0 rest := by
  simp only [csGo]
  rw [if_neg h]

theorem sfGo_nil (b : Bool) : sfGo b [] = true := rfl

theorem sfGo_single (b : Bool) (c : Char) : sfGo b [c] = true := by
  simp [sfGo]

theorem sfGo_sep (b : Bool) (rest2 : List Char) :
    sfGo b ('/' :: '/' :: rest2) =
      (b &&
        (match rest2 with
         | [] => true
         | c3 :: _ => decide (c3 = ' ')) &&
        sfGo false rest2) := by
  simp [sfGo]

theorem sfGo_other (b : Bool) (c c2 : Char) (rest2 : List Char)
    (h : ¬(c = '/' ∧ c2 = '/')) :
    sfGo b (c :: c2 :: rest2) = sfGo (decide (c = ' ')) (c2 :: rest2) := by
  simp only [sfGo]
  rw [if_neg h]

/-! Structure lemmas for the normal form predicates. -/

theorem noTriple_cons_eq (x : Char) (xs : List Char) :
    noTriple (x :: xs) =
      ((match xs with
        | x2 :: x3 :: _ => !(decide (x = '/') && decide (x2 = '/') && decide (x3 = '/'))
        | _ => true) && noTriple xs) := by
  cases xs with
  | nil => rfl
  | cons x2 xs2 =>
    cases xs2 with
    | nil => rfl
    | cons x3 xs3 => rfl

theorem noTriple_tail {x : Char} {xs : List Char} (h : noTriple (x :: xs) = true) :
    noTriple xs = true := by
  rw [noTriple_cons_eq] at h
  exact (Bool.and_eq_true_iff.mp h).2

theorem noTriple_cons_of_head {c : Char} {w : List Char} (hc : ¬(c = '/'))
    (h : noTriple w = true) : noTriple (c :: w) = true := by
  rw [noTriple_cons_eq, h, Bool.and_true]
  cases w with
  | nil => rfl
  | cons w1 w2 =>
    cases w2 with
    | nil => rfl
    | cons w3 w4 =>
      simp [hc]

theorem noTriple_cons_of_second {c w1 : Char} {w2 : List Char} (hc : ¬(w1 = '/'))
    (h : noTriple (w1 :: w2) = true) : noTriple (c :: w1 :: w2) = true := by
  rw [noTriple_cons_eq, h, Bool.and_true]
  cases w2 with
  | nil => rfl
  | cons w3 w4 =>
    simp [hc]

theorem noTriple_append_right {a b : List Char} (h : noTriple (a ++ b) = true) :
    noTriple b = true := by
  induction a with
  | nil => exact h
  | cons x a2 ih =>
    exact ih (noTriple_tail h)

theorem noTriple_append_left {a b : List Char} (h : noTriple (a ++ b) = true) :
    noTriple a = true := by
  induction a with
  | nil => rfl
  | cons x a2 ih =>
    rw [noTriple_cons_eq, ih (noTriple_tail h), Bool.and_true]
    cases a2 with
    | nil => rfl
    | cons y a3 =>
      cases a3 with
      | nil => rfl
      | cons z a4 =>
        rw [List.cons_append] at h
        rw [noTriple_cons_eq] at h
        have := (Bool.and_eq_true_iff.mp h).1
        simpa using this

theorem noTriple_ws_prefix {p w : List Char} (hp : ∀ x ∈ p, isWS x = true)
    (h : noTriple w = true) : noTriple (p ++ w) = true := by
  induction p with
  | nil => exact h
  | cons x p2 ih =>
    rw [List.cons_append]
    exact noTriple_cons_of_head (ws_ne_slash (hp x (List.mem_cons_self _ _)))
      (ih (fun y hy => hp y (List.mem_cons_of_mem _ hy)))

theorem noTriple_ws_only {p : List Char} (hp : ∀ x ∈ p, isWS x = true) :
    noTriple p = true := by
  have := noTriple_ws_prefix hp (show noTriple [] = true from rfl)
  simpa using this

theorem noDoubleWS_cons_eq (x : Char) (xs : List Char) :
    noDoubleWS (x :: xs) =
      ((match xs with
        | x2 :: _ => !(isWS x && isWS x2)
        | _ => true) && noDoubleWS xs) := by
  cases xs with
  | nil => rfl
  | cons x2 xs2 => rfl

theorem noDoubleWS_tail {x : Char} {xs : List Char} (h : noDoubleWS (x :: xs) = true) :
    noDoubleWS xs = true := by
  rw [noDoubleWS_cons_eq] at h
  exact (Bool.and_eq_true_iff.mp h).2

theorem noDoubleWS_cons_of_head {c : Char} {w : List Char} (hc : isWS c = false)
    (h : noDoubleWS w = true) : noDoubleWS (c :: w) = true := by
  rw [noDoubleWS_cons_eq, h, Bool.and_true]
  cases w with
  | nil => rfl
  | cons w1 w2 =>
    show (!(isWS c && isWS w1)) = true
    rw [hc]
    rfl

theorem noDoubleWS_cons_of_second {c w1 : Char} {w2 : List Char} (hc : isWS w1 = false)
    (h : noDoubleWS (w1 :: w2) = true) : noDoubleWS (c :: w1 :: w2) = true := by
  rw [noDoubleWS_cons_eq, h, Bool.and_true]
  show (!(isWS c && isWS w1)) = true
  rw [hc]
  simp

theorem noDoubleWS_pair {x y : Char} {xs : List Char}
    (h : noDoubleWS (x :: y :: xs) = true) (hx : isWS x = true) : isWS y = false := by
  rw [noDoubleWS_cons_eq] at h
  have h1 := (Bool.and_eq_true_iff.mp h).1
  have h2 : (!(isWS x && isWS y)) = true := h1
  rcases hy : isWS y
  · rfl
  · rw [hx, hy] at h2
    exact absurd h2 (by decide)

/-! Trim lemmas. -/

theorem trimL_nil : trimL [] = [] := rfl

theorem trimL_cons_ws (c : Char) (l : List Char) (h : isWS c = true) :
    trimL (c :: l) = trimL l := by
  simp [trimL, List.dropWhile_cons, h]

theorem trimL_cons_nonws (c : Char) (l : List Char) (h : isWS c = false) :
    trimL (c :: l) = c :: l := by
  simp [trimL, List.dropWhile_cons, h]

theorem noLeadWS_trimL (l : List Char) : noLeadWS (trimL l) = true := by
  induction l with
  | nil => rfl
  | cons c rest ih =>
    rcases h : isWS c
    · rw [trimL_cons_nonws c rest h, noLeadWS, h]
      rfl
    · rw [trimL_cons_ws c rest h]
      exact ih

theorem trimR_reverse (l : List Char) : (trimR l).reverse = trimL l.reverse := by
  rw [trimR, trimL, List.reverse_reverse]

theorem noTrailWS_trimR (l : List Char) : noTrailWS (trimR l) = true := by
  rw [noTrailWS, trimR_reverse]
  exact noLeadWS_trimL l.reverse

theorem trimR_decomp (l : List Char) :
    ∃ t, l = trimR l ++ t ∧ ∀ c ∈ t, isWS c = true := by
  refine ⟨(l.reverse.takeWhile isWS).reverse, ?_, ?_⟩
  · have h := List.takeWhile_append_dropWhile (p := isWS) (l := l.reverse)
    have h2 := congrArg List.reverse h
    rw [List.reverse_append, List.reverse_reverse] at h2
    rw [trimR]
    exact h2.symm
  · intro c hc
    rw [List.mem_reverse] at hc
    exact List.mem_takeWhile_imp hc

theorem noLeadWS_append_left {a t : List Char} (h : noLeadWS (a ++ t) = true) :
    noLeadWS a = true := by
  cases a with
  | nil => rfl
  | cons c a2 => exact h

theorem noLeadWS_trimR {l : List Char} (h : noLeadWS l = true) :
    noLeadWS (trimR l) = true := by
  rcases trimR_decomp l with ⟨t, hdec, _⟩
  rw [hdec] at h
  exact noLeadWS_append_left h

theorem noLeadWS_trimBoth (l : List Char) : noLeadWS (trimBoth l) = true :=
  noLeadWS_trimR (noLeadWS_trimL l)

theorem noTrailWS_trimBoth (l : List Char) : noTrailWS (trimBoth l) = true :=
  noTrailWS_trimR (trimL l)

theorem trimL_eq_self {l : List Char} (h : noLeadWS l = true) : trimL l = l := by
  cases l with
  | nil => rfl
  | cons c rest =>
    rw [noLeadWS] at h
    rcases hc : isWS c
    · exact trimL_cons_nonws c rest hc
    · rw [hc] at h
      exact absurd h (by decide)

theorem trimR_eq_self {l : List Char} (h : noTrailWS l = true) : trimR l = l := by
  rw [noTrailWS] at h
  have h2 : trimL l.reverse = l.reverse := trimL_eq_self h
  rw [trimR]
  rw [show l.reverse.dropWhile isWS = trimL l.reverse from rfl, h2, List.reverse_reverse]

theorem trimBoth_eq_self {l : List Char} (h1 : noLeadWS l = true)
    (h2 : noTrailWS l = true) : trimBoth l = l := by
  rw [trimBoth, trimL_eq_self h1, trimR_eq_self h2]

theorem trimL_ws_append {a m : List Char} (ha : ∀ x ∈ a, isWS x = true) :
    trimL (a ++ m) = trimL m := by
  induction a with
  | nil => rfl
  | cons c a2 ih =>
    rw [List.cons_append, trimL_cons_ws c _ (ha c (List.mem_cons_self _ _))]
    exact ih (fun x hx => ha x (List.mem_cons_of_mem _ hx))

theorem trimR_append_ws {y b : List Char} (hb : ∀ x ∈ b, isWS x = true) :
    trimR (y ++ b) = trimR y := by
  rw [trimR, trimR, List.reverse_append]
  rw [show (b.reverse ++ y.reverse).dropWhile isWS = trimL (b.reverse ++ y.reverse) from rfl]
  rw [trimL_ws_append (fun x hx => hb x (List.mem_reverse.mp hx))]
  rfl

theorem trim_pad {y a b : List Char} (h1 : noLeadWS y = true) (h2 : noTrailWS y = true)
    (hy : y ≠ []) (ha : ∀ x ∈ a, isWS x = true) (hb : ∀ x ∈ b, isWS x = true) :
    trimBoth (a ++ y ++ b) = y := by
  rw [trimBoth, List.append_assoc, trimL_ws_append ha]
  cases y with
  | nil => exact absurd rfl hy
  | cons c y2 =>
    rw [noLeadWS] at h1
    have hc : isWS c = false := by
      rcases hv : isWS c
      · rfl
      · rw [hv] at h1
        exact absurd h1 (by decide)
    rw [List.cons_append, trimL_cons_nonws _ _ hc, ← List.cons_append]
    rw [trimR_append_ws hb]
    exact trimR_eq_self h2

theorem noTriple_trimL {l : List Char} (h : noTriple l = true) :
    noTriple (trimL l) = true := by
  have hd := List.takeWhile_append_dropWhile (p := isWS) (l := l)
  rw [← hd] at h
  exact noTriple_append_right h

theorem noTriple_trimR {l : List Char} (h : noTriple l = true) :
    noTriple (trimR l) = true := by
  rcases trimR_decomp l with ⟨t, hdec, _⟩
  rw [hdec] at h
  exact noTriple_append_left h

theorem noTriple_trimBoth {l : List Char} (h : noTriple l = true) :
    noTriple (trimBoth l) = true :=
  noTriple_trimR (noTriple_trimL h)

theorem noDoubleWS_append_right {a b : List Char} (h : noDoubleWS (a ++ b) = true) :
    noDoubleWS b = true := by
  induction a with
  | nil => exact h
  | cons x a2 ih => exact ih (noDoubleWS_tail h)

theorem noDoubleWS_append_left {a b : List Char} (h : noDoubleWS (a ++ b) = true) :
    noDoubleWS a = true := by
  induction a with
  | nil => rfl
  | cons x a2 ih =>
    rw [noDoubleWS_cons_eq, ih (noDoubleWS_tail h), Bool.and_true]
    cases a2 with
    | nil => rfl
    | cons y a3 =>
      rw [List.cons_append, noDoubleWS_cons_eq] at h
      have := (Bool.and_eq_true_iff.mp h).1
      exact this

theorem noDoubleWS_trimL {l : List Char} (h : noDoubleWS l = true) :
    noDoubleWS (trimL l) = true := by
  have hd := List.takeWhile_append_dropWhile (p := isWS) (l := l)
  rw [← hd] at h
  exact noDoubleWS_append_right h

theorem noDoubleWS_trimR {l : List Char} (h : noDoubleWS l = true) :
    noDoubleWS (trimR l) = true := by
  rcases trimR_decomp l with ⟨t, hdec, _⟩
  rw [hdec] at h
  exact noDoubleWS_append_left h

theorem noDoubleWS_trimBoth {l : List Char} (h : noDoubleWS l = true) :
    noDoubleWS (trimBoth l) = true :=
  noDoubleWS_trimR (noDoubleWS_trimL h)

/-! Separator flanking lemmas. -/

theorem sfGo_mono {l : List Char} (h : sfGo false l = true) : sfGo true l = true := by
  cases l with
  | nil => rfl
  | cons c rest =>
    cases rest with
    | nil => exact sfGo_single true c
    | cons c2 rest2 =>
      by_cases hsep : c = '/' ∧ c2 = '/'
      · rcases hsep with ⟨h1, h2⟩
        subst h1
        subst h2
        rw [sfGo_sep] at h
        exact absurd h (by simp)
      · rw [sfGo_other false c c2 rest2 hsep] at h
        rw [sfGo_other true c c2 rest2 hsep]
        exact h

theorem sfGo_trimL {l : List Char} (h : sfGo true l = true) :
    sfGo true (trimL l) = true := by
  induction l with
  | nil => rfl
  | cons c rest ih =>
    rcases hc : isWS c
    · rwa [trimL_cons_nonws c rest hc]
    · rw [trimL_cons_ws c rest hc]
      apply ih
      cases rest with
      | nil => rfl
      | cons c2 rest2 =>
        rw [sfGo_other true c c2 rest2 (fun hx => ws_ne_slash hc hx.1)] at h
        by_cases hsp : c = ' '
        · rwa [hsp] at h
        · rw [decide_eq_false hsp] at h
          exact sfGo_mono h

theorem sfGo_append_ws :
    ∀ (N : Nat) (l : List Char) (b : Bool) (t : List Char), l.length ≤ N →
      (∀ x ∈ t, isWS x = true) → sfGo b (l ++ t) = true → sfGo b l = true := by
  intro N
  induction N with
  | zero =>
    intro l b t hl
    have : l = [] := List.length_eq_zero.mp (Nat.le_zero.mp hl)
    subst this
    intro _ _
    rfl
  | succ N ih =>
    intro l b t hl ht h
    cases l with
    | nil => rfl
    | cons c l1 =>
      cases l1 with
      | nil => exact sfGo_single b c
      | cons c2 l2 =>
        by_cases hsep : c = '/' ∧ c2 = '/'
        · rcases hsep with ⟨h1, h2⟩
          subst h1
          subst h2
          rw [List.cons_append, List.cons_append, sfGo_sep] at h
          rcases Bool.and_eq_true_iff.mp h with ⟨h3, h4⟩
          rcases Bool.and_eq_true_iff.mp h3 with ⟨hb, hcheck⟩
          rw [sfGo_sep, hb]
          have hlen : l2.length ≤ N := by
            simp only [List.length_cons] at hl
            omega
          rw [ih l2 false t hlen ht h4, Bool.and_true]
          cases l2 with
          | nil => rfl
          | cons c3 l3 =>
            rw [List.cons_append] at hcheck
            exact hcheck
        · rw [List.cons_append, List.cons_append,
            sfGo_other b c c2 (l2 ++ t) hsep] at h
          rw [sfGo_other b c c2 l2 hsep]
          have hlen : (c2 :: l2).length ≤ N := by
            simp only [List.length_cons] at hl ⊢
            omega
          have := ih (c2 :: l2) (decide (c = ' ')) t hlen ht (by
            rw [List.cons_append]
            exact h)
          exact this

theorem sfGo_trimR {l : List Char} (h : sfGo true l = true) :
    sfGo true (trimR l) = true := by
  rcases trimR_decomp l with ⟨t, hdec, hws⟩
  rw [hdec] at h
  exact sfGo_append_ws (trimR l).length (trimR l) true t (Nat.le_refl _) hws h

theorem sfGo_trimBoth {l : List Char} (h : sfGo true l = true) :
    sfGo true (trimBoth l) = true :=
  sfGo_trimR (sfGo_trimL h)

/-! Head lemmas for the normalizer machines. -/

theorem ssGo_false_head_not_slash :
    ∀ (u pend : List Char), (∀ x ∈ pend, isWS x = true) →
      (pend = [] → u.head? ≠ some '/') →
      ∀ d, (ssGo false pend u).head? = some d → ¬(d = '/') := by
  intro u
  induction u with
  | nil =>
    intro pend hp hhead d hd
    rw [ssGo_nil] at hd
    cases pend with
    | nil => exact absurd hd (by simp)
    | cons x p2 =>
      have : x = d := by
        rw [List.head?_cons] at hd
        injection hd
      subst this
      exact ws_ne_slash (hp x (List.mem_cons_self _ _))
  | cons c rest ih =>
    intro pend hp hhead d hd
    by_cases hsep : c = '/' ∧ rest.head? = some '/'
    · rcases hsep with ⟨h1, h2⟩
      subst h1
      cases rest with
      | nil => exact absurd h2 (by simp)
      | cons c2 rest2 =>
        have : c2 = '/' := by
          rw [List.head?_cons] at h2
          injection h2
        subst this
        rw [ssGo_sep] at hd
        rw [List.head?_cons] at hd
        have : ' ' = d := by injection hd
        subst this
        decide
    · rcases hc : isWS c
      · rw [ssGo_other false pend c rest hc hsep] at hd
        cases pend with
        | nil =>
          rw [List.nil_append, List.head?_cons] at hd
          have : c = d := by injection hd
          subst this
          intro he
          exact hhead rfl (by rw [he]; rfl)
        | cons x p2 =>
          rw [List.cons_append, List.head?_cons] at hd
          have : x = d := by injection hd
          subst this
          exact ws_ne_slash (hp x (List.mem_cons_self _ _))
      · rw [ssGo_ws_cons false pend c rest hc] at hd
        simp only [Bool.false_eq_true, if_false] at hd
        exact ih (pend ++ [c]) (by
          intro x hx
          rcases List.mem_append.mp hx with hx2 | hx2
          · exact hp x hx2
          · have : x = c := by simpa using hx2
            rw [this]
            exact hc) (by intro hcon; exact absurd hcon (by simp)) d hd

theorem wsGo_head_not_slash :
    ∀ (u pend : List Char), (∀ x ∈ pend, isWS x = true) →
      (pend = [] → u.head? ≠ some '/') →
      ∀ d, (wsGo pend u).head? = some d → ¬(d = '/') := by
  intro u
  induction u with
  | nil =>
    intro pend hp hhead d hd
    rw [wsGo_nil] at hd
    cases pend with
    | nil => exact absurd hd (by simp [emitWS_nil])
    | cons x p2 =>
      cases p2 with
      | nil =>
        rw [emitWS_single, List.head?_cons] at hd
        have : x = d := by injection hd
        subst this
        exact ws_ne_slash (hp x (List.mem_cons_self _ _))
      | cons y p3 =>
        rw [emitWS_long, List.head?_cons] at hd
        have : ' ' = d := by injection hd
        subst this
        decide
  | cons c rest ih =>
    intro pend hp hhead d hd
    rcases hc : isWS c
    · rw [wsGo_nonws pend c rest hc] at hd
      cases pend with
      | nil =>
        rw [emitWS_nil, List.nil_append, List.head?_cons] at hd
        have : c = d := by injection hd
        subst this
        intro he
        exact hhead rfl (by rw [he]; rfl)
      | cons x p2 =>
        cases p2 with
        | nil =>
          rw [emitWS_single, List.cons_append, List.head?_cons] at hd
          have : x = d := by injection hd
          subst this
          exact ws_ne_slash (hp x (List.mem_cons_self _ _))
        | cons y p3 =>
          rw [emitWS_long, List.cons_append, List.head?_cons] at hd
          have : ' ' = d := by injection hd
          subst this
          decide
    · rw [wsGo_ws pend c rest hc] at hd
      exact ih (pend ++ [c]) (by
        intro x hx
        rcases List.mem_append.mp hx with hx2 | hx2
        · exact hp x hx2
        · have : x = c := by simpa using hx2
          rw [this]
          exact hc) (by intro hcon; exact absurd hcon (by simp)) d hd

theorem wsGo_ws_append :
    ∀ (p q tail : List Char), (∀ x ∈ p, isWS x = true) →
      wsGo q (p ++ tail) = wsGo (q ++ p) tail := by
  intro p
  induction p with
  | nil =>
    intro q tail _
    rw [List.nil_append, List.append_nil]
  | cons x p2 ih =>
    intro q tail hp
    rw [List.cons_append, wsGo_ws q x _ (hp x (List.mem_cons_self _ _))]
    rw [ih (q ++ [x]) tail (fun y hy => hp y (List.mem_cons_of_mem _ hy))]
    rw [List.append_assoc]
    rfl

theorem startsSep_nil : startsSep [] = false := rfl

theorem startsSep_single (c : Char) : startsSep [c] = false := rfl

theorem startsSep_cons2 (c1 c2 : Char) (r : List Char) :
    startsSep (c1 :: c2 :: r) = (decide (c1 = '/') && decide (c2 = '/')) := rfl

/-! The slash collapse emits triple-free output and is the identity on
triple-free input. -/

theorem noTriple_emitSlashes (n : Nat) : noTriple (emitSlashes n) = true := by
  by_cases h : 3 ≤ n
  · rw [emitSlashes, if_pos h]
    decide
  · rw [emitSlashes, if_neg h]
    have h3 : n < 3 := Nat.lt_of_not_le h
    interval_cases n <;> decide

theorem emitSlashes_len_le (n : Nat) : (emitSlashes n).length ≤ 2 := by
  by_cases h : 3 ≤ n
  · rw [emitSlashes, if_pos h]
    decide
  · rw [emitSlashes, if_neg h]
    rw [List.length_replicate]
    omega

theorem noTriple_cons_cons_of_third {x y c : Char} {w : List Char} (hc : ¬(c = '/'))
    (h : noTriple (y :: c :: w) = true) : noTriple (x :: y :: c :: w) = true := by
  rw [noTriple_cons_eq, h, Bool.and_true]
  show (!(decide (x = '/') && decide (y = '/') && decide (c = '/'))) = true
  rw [decide_eq_false hc]
  simp

theorem noTriple_cons2_of_third {a b : Char} {w : List Char}
    (hw0 : ∀ d, w.head? = some d → ¬(d = '/')) (h : noTriple (b :: w) = true) :
    noTriple (a :: b :: w) = true := by
  cases w with
  | nil => rfl
  | cons z zs => exact noTriple_cons_cons_of_third (hw0 z rfl) h

theorem noTriple_cons_of_head_tail {c : Char} {w : List Char}
    (hw0 : ∀ d, w.head? = some d → ¬(d = '/')) (h : noTriple w = true) :
    noTriple (c :: w) = true := by
  cases w with
  | nil => rfl
  | cons w1 w2 => exact noTriple_cons_of_second (hw0 w1 rfl) h

theorem noTriple_short_append {a : List Char} (ha : a.length ≤ 2) {c : Char}
    (hc : ¬(c = '/')) {w : List Char} (hw : noTriple w = true) :
    noTriple (a ++ c :: w) = true := by
  have h1 : noTriple (c :: w) = true := noTriple_cons_of_head hc hw
  cases a with
  | nil => exact h1
  | cons x a2 =>
    cases a2 with
    | nil => exact noTriple_cons_of_second hc h1
    | cons y a3 =>
      cases a3 with
      | nil => exact noTriple_cons_cons_of_third hc (noTriple_cons_of_second hc h1)
      | cons z a4 => simp at ha

theorem noTriple_csGo : ∀ (l : List Char) (pend : Nat), noTriple (csGo pend l) = true := by
  intro l
  induction l with
  | nil =>
    intro pend
    rw [csGo_nil]
    exact noTriple_emitSlashes pend
  | cons c rest ih =>
    intro pend
    by_cases hc : c = '/'
    · subst hc
      rw [csGo_slash]
      exact ih (pend + 1)
    · rw [csGo_other pend c rest hc]
      exact noTriple_short_append (emitSlashes_len_le pend) hc (ih 0)

theorem csGo_id : ∀ (l : List Char) (pend : Nat), pend ≤ 2 →
    noTriple (List.replicate pend '/' ++ l) = true →
    csGo pend l = List.replicate pend '/' ++ l := by
  intro l
  induction l with
  | nil =>
    intro pend hp _
    rw [csGo_nil, List.append_nil, emitSlashes, if_neg (by omega)]
  | cons c rest ih =>
    intro pend hp hnt
    by_cases hc : c = '/'
    · subst hc
      have hrep : List.replicate (pend + 1) '/' ++ rest =
          List.replicate pend '/' ++ '/' :: rest := by
        rw [List.replicate_succ', List.append_assoc, List.singleton_append]
      have hple : pend + 1 ≤ 2 := by
        rcases Nat.lt_or_ge pend 2 with h2 | h2
        · omega
        · exfalso
          have hp2 : pend = 2 := by omega
          subst hp2
          rw [show List.replicate 2 '/' ++ '/' :: rest = '/' :: '/' :: '/' :: rest
            from rfl] at hnt
          have hfalse : noTriple ('/' :: '/' :: '/' :: rest) = false := by
            show ((!(decide ('/' = '/') && decide ('/' = '/') && decide ('/' = '/'))) &&
              noTriple ('/' :: '/' :: rest)) = false
            simp
          rw [hfalse] at hnt
          exact absurd hnt (by decide)
      rw [csGo_slash, ih (pend + 1) hple (by rw [hrep]; exact hnt)]
      exact hrep
    · rw [csGo_other pend c rest hc]
      have h0 : noTriple rest = true := noTriple_tail (noTriple_append_right hnt)
      rw [ih 0 (by omega) h0]
      rw [emitSlashes, if_neg (by omega)]
      rfl

theorem collapseSlashes_eq_self {l : List Char} (h : noTriple l = true) :
    collapseSlashes l = l := by
  rw [collapseSlashes]
  have h2 := csGo_id l 0 (by omega) (by simpa using h)
  simpa using h2

/-! The separator spacing pass emits triple-free output. -/

theorem noTriple_ssGo : ∀ (N : Nat) (u : List Char) (skip : Bool) (pend : List Char),
    u.length ≤ N → (∀ x ∈ pend, isWS x = true) →
    noTriple (ssGo skip pend u) = true := by
  intro N
  induction N with
  | zero =>
    intro u skip pend hl hp
    have hu : u = [] := List.length_eq_zero.mp (Nat.le_zero.mp hl)
    subst hu
    rw [ssGo_nil]
    exact noTriple_ws_only hp
  | succ N ih =>
    intro u skip pend hl hp
    cases u with
    | nil =>
      rw [ssGo_nil]
      exact noTriple_ws_only hp
    | cons c rest =>
      by_cases hsep : c = '/' ∧ rest.head? = some '/'
      · rcases hsep with ⟨h1, h2⟩
        subst h1
        cases rest with
        | nil => exact absurd h2 (by simp)
        | cons c2 rest2 =>
          have hc2 : c2 = '/' := by
            rw [List.head?_cons] at h2
            injection h2
          subst hc2
          rw [ssGo_sep]
          have hlen : rest2.length ≤ N := by
            simp only [List.length_cons] at hl
            omega
          have hZ := ih rest2 true [] hlen (fun x hx => absurd hx (List.not_mem_nil x))
          have s1 : noTriple (' ' :: ssGo true [] rest2) = true :=
            noTriple_cons_of_head (by decide) hZ
          have s2 : noTriple ('/' :: ' ' :: ssGo true [] rest2) = true :=
            noTriple_cons_of_second (by decide) s1
          have s3 : noTriple ('/' :: '/' :: ' ' :: ssGo true [] rest2) = true :=
            noTriple_cons_cons_of_third (by decide) s2
          exact noTriple_cons_of_head (by decide) s3
      · have hlen : rest.length ≤ N := by
          simp only [List.length_cons] at hl
          omega
        rcases hc : isWS c
        · rw [ssGo_other skip pend c rest hc hsep]
          apply noTriple_ws_prefix hp
          by_cases hcs : c = '/'
          · subst hcs
            have hrh : rest.head? ≠ some '/' := fun hh => hsep ⟨rfl, hh⟩
            have hZ := ih rest false [] hlen (fun x hx => absurd hx (List.not_mem_nil x))
            apply noTriple_cons_of_head_tail _ hZ
            intro d hd
            exact ssGo_false_head_not_slash rest []
              (fun x hx => absurd hx (List.not_mem_nil x)) (fun _ => hrh) d hd
          · exact noTriple_cons_of_head hcs
              (ih rest false [] hlen (fun x hx => absurd hx (List.not_mem_nil x)))
        · rw [ssGo_ws_cons skip pend c rest hc]
          cases skip with
          | false =>
            simp only [Bool.false_eq_true, if_false]
            refine ih rest false (pend ++ [c]) hlen ?_
            intro x hx
            rcases List.mem_append.mp hx with hx2 | hx2
            · exact hp x hx2
            · have hxc : x = c := by simpa using hx2
              rw [hxc]
              exact hc
          | true =>
            simp only [if_true]
            exact ih rest true [] hlen (fun x hx => absurd hx (List.not_mem_nil x))

theorem noTriple_spaceSlashes (u : List Char) : noTriple (spaceSlashes u) = true := by
  rw [spaceSlashes]
  exact noTriple_ssGo u.length u false [] (Nat.le_refl _)
    (fun x hx => absurd hx (List.not_mem_nil x))

/-! The whitespace collapse emits triple-free output on triple-free input and
always emits output without double whitespace. -/

theorem noTriple_emitWS (p : List Char) : noTriple (emitWS p) = true := by
  cases p with
  | nil => rfl
  | cons c p2 =>
    cases p2 with
    | nil => rfl
    | cons d p3 => rfl

theorem emitWS_ws {p : List Char} (hp : ∀ x ∈ p, isWS x = true) :
    ∀ y ∈ emitWS p, isWS y = true := by
  cases p with
  | nil =>
    intro y hy
    exact absurd hy (List.not_mem_nil y)
  | cons c p2 =>
    cases p2 with
    | nil =>
      intro y hy
      rw [emitWS_single] at hy
      have hyc : y = c := by simpa using hy
      rw [hyc]
      exact hp c (List.mem_cons_self _ _)
    | cons d p3 =>
      intro y hy
      rw [emitWS_long] at hy
      have hyc : y = ' ' := by simpa using hy
      rw [hyc]
      exact space_ws

theorem noTriple_wsGo : ∀ (N : Nat) (v pend : List Char), v.length ≤ N →
    noTriple v = true → (∀ x ∈ pend, isWS x = true) →
    noTriple (wsGo pend v) = true := by
  intro N
  induction N with
  | zero =>
    intro v pend hl _ hp
    have hv : v = [] := List.length_eq_zero.mp (Nat.le_zero.mp hl)
    subst hv
    rw [wsGo_nil]
    exact noTriple_emitWS pend
  | succ N ih =>
    intro v pend hl hv hp
    cases v with
    | nil =>
      rw [wsGo_nil]
      exact noTriple_emitWS pend
    | cons c rest =>
      have hlen : rest.length ≤ N := by
        simp only [List.length_cons] at hl
        omega
      rcases hc : isWS c
      · rw [wsGo_nonws pend c rest hc]
        apply noTriple_ws_prefix (emitWS_ws hp)
        have hrest := ih rest [] hlen (noTriple_tail hv)
          (fun x hx => absurd hx (List.not_mem_nil x))
        by_cases hcs : c = '/'
        · subst hcs
          cases rest with
          | nil => decide
          | cons r0 rest2 =>
            rcases hr0 : isWS r0
            · by_cases hr0s : r0 = '/'
              · subst hr0s
                have hnext : rest2.head? ≠ some '/' := by
                  intro hd
                  cases rest2 with
                  | nil => exact absurd hd (by simp)
                  | cons r1 rest3 =>
                    have hr1 : r1 = '/' := by
                      rw [List.head?_cons] at hd
                      injection hd
                    subst hr1
                    have hfalse : noTriple ('/' :: '/' :: '/' :: rest3) = false := by
                      show ((!(decide ('/' = '/') && decide ('/' = '/') &&
                        decide ('/' = '/'))) && noTriple ('/' :: '/' :: rest3)) = false
                      simp
                    rw [hfalse] at hv
                    exact absurd hv (by decide)
                rw [wsGo_nonws [] '/' rest2 (by decide), emitWS_nil, List.nil_append] at hrest ⊢
                have hhead : ∀ d, (wsGo [] rest2).head? = some d → ¬(d = '/') := by
                  intro d hd
                  exact wsGo_head_not_slash rest2 []
                    (fun x hx => absurd hx (List.not_mem_nil x)) (fun _ => hnext) d hd
                exact noTriple_cons2_of_third hhead hrest
              · rw [wsGo_nonws [] r0 rest2 hr0, emitWS_nil, List.nil_append] at hrest ⊢
                exact noTriple_cons_of_second hr0s hrest
            · rw [wsGo_ws [] r0 rest2 hr0] at hrest ⊢
              apply noTriple_cons_of_head_tail _ hrest
              intro d hd
              refine wsGo_head_not_slash rest2 [r0] ?_ (fun hcon => absurd hcon (by simp)) d hd
              intro x hx
              have hxr : x = r0 := by simpa using hx
              rw [hxr]
              exact hr0
        · exact noTriple_cons_of_head hcs hrest
      · rw [wsGo_ws pend c rest hc]
        refine ih rest (pend ++ [c]) hlen (noTriple_tail hv) ?_
        intro x hx
        rcases List.mem_append.mp hx with hx2 | hx2
        · exact hp x hx2
        · have hxc : x = c := by simpa using hx2
          rw [hxc]
          exact hc

theorem noTriple_collapseWS {v : List Char} (h : noTriple v = true) :
    noTriple (collapseWS v) = true := by
  rw [collapseWS]
  exact noTriple_wsGo v.length v [] (Nat.le_refl _) h
    (fun x hx => absurd hx (List.not_mem_nil x))

theorem noDoubleWS_emitWS (p : List Char) : noDoubleWS (emitWS p) = true := by
  cases p with
  | nil => rfl
  | cons c p2 =>
    cases p2 with
    | nil => rfl
    | cons d p3 => rfl

theorem noDoubleWS_wsGo : ∀ (v pend : List Char), noDoubleWS (wsGo pend v) = true := by
  intro v
  induction v with
  | nil =>
    intro pend
    rw [wsGo_nil]
    exact noDoubleWS_emitWS pend
  | cons c rest ih =>
    intro pend
    rcases hc : isWS c
    · rw [wsGo_nonws pend c rest hc]
      have h1 : noDoubleWS (c :: wsGo [] rest) = true :=
        noDoubleWS_cons_of_head hc (ih [])
      cases pend with
      | nil =>
        rw [emitWS_nil, List.nil_append]
        exact h1
      | cons d p2 =>
        cases p2 with
        | nil =>
          rw [emitWS_single, List.singleton_append]
          exact noDoubleWS_cons_of_second hc h1
        | cons e p3 =>
          rw [emitWS_long, List.singleton_append]
          exact noDoubleWS_cons_of_second hc h1
    · rw [wsGo_ws pend c rest hc]
      exact ih (pend ++ [c])

theorem noDoubleWS_collapseWS (v : List Char) : noDoubleWS (collapseWS v) = true := by
  rw [collapseWS]
  exact noDoubleWS_wsGo v []

/-! Auxiliary whitespace-machine equations used by the second-pass analysis. -/

theorem wsGo_two_space : ∀ (w q : List Char),
    wsGo (' ' :: ' ' :: q) w = wsGo (' ' :: q) w := by
  intro w
  induction w with
  | nil =>
    intro q
    rw [wsGo_nil, wsGo_nil, emitWS_long]
    cases q with
    | nil => rfl
    | cons x q2 => rw [emitWS_long]
  | cons c rest ih =>
    intro q
    rcases hc : isWS c
    · rw [wsGo_nonws _ c rest hc, wsGo_nonws _ c rest hc, emitWS_long]
      cases q with
      | nil => rfl
      | cons x q2 => rw [emitWS_long]
    · rw [wsGo_ws _ c rest hc, wsGo_ws _ c rest hc,
        show (' ' :: ' ' :: q) ++ [c] = ' ' :: ' ' :: (q ++ [c]) from rfl,
        show (' ' :: q) ++ [c] = ' ' :: (q ++ [c]) from rfl]
      exact ih (q ++ [c])

theorem wsGo_space_head : ∀ (w q : List Char),
    (wsGo (' ' :: q) w).head? = some ' ' := by
  intro w
  induction w with
  | nil =>
    intro q
    cases q with
    | nil => rfl
    | cons x q2 => rfl
  | cons c rest ih =>
    intro q
    rcases hc : isWS c
    · rw [wsGo_nonws _ c rest hc]
      cases q with
      | nil => rfl
      | cons x q2 => rfl
    · rw [wsGo_ws _ c rest hc,
        show (' ' :: q) ++ [c] = ' ' :: (q ++ [c]) from rfl]
      exact ih (q ++ [c])

/-! Facts about the ends-with-separator test. -/

theorem endsSep_append2 {p r : List Char} (h : 2 ≤ r.length) :
    endsSep (p ++ r) = endsSep r := by
  rw [endsSep, endsSep, List.reverse_append]
  rcases List.exists_cons_of_ne_nil (l := r.reverse) (by
    intro hcon
    rw [List.reverse_eq_nil_iff] at hcon
    subst hcon
    simp at h) with ⟨a, t1, ht1⟩
  rcases List.exists_cons_of_ne_nil (l := t1) (by
    intro hcon
    subst hcon
    have hlen := congrArg List.length ht1
    simp at hlen
    omega) with ⟨b, t2, ht2⟩
  rw [ht1, ht2, List.cons_append, List.cons_append, startsSep_cons2, startsSep_cons2]

theorem endsSep_two (c e : Char) :
    endsSep [c, e] = (decide (e = '/') && decide (c = '/')) := rfl

/-! More emission facts for the whitespace machine. -/

theorem emitWS_len_le (p : List Char) : (emitWS p).length ≤ 1 := by
  cases p with
  | nil => exact Nat.zero_le 1
  | cons c p2 =>
    cases p2 with
    | nil => exact Nat.le_refl 1
    | cons d p3 => exact Nat.le_refl 1

theorem emitWS_snoc_space (p0 : List Char) : emitWS (p0 ++ [' ']) = [' '] := by
  cases p0 with
  | nil => rfl
  | cons x q =>
    cases q with
    | nil => rfl
    | cons y r => rfl

theorem wsGo_all_ws {v : List Char} (hv : ∀ x ∈ v, isWS x = true) (q : List Char) :
    wsGo q v = emitWS (q ++ v) := by
  induction v generalizing q with
  | nil => rw [wsGo_nil, List.append_nil]
  | cons c rest ih =>
    rw [wsGo_ws q c rest (hv c (List.mem_cons_self _ _))]
    rw [ih (fun x hx => hv x (List.mem_cons_of_mem _ hx)) (q ++ [c])]
    rw [List.append_assoc, List.singleton_append]

theorem sfGo_emitWS (b : Bool) (p : List Char) : sfGo b (emitWS p) = true := by
  cases p with
  | nil => rfl
  | cons c p2 =>
    cases p2 with
    | nil => exact sfGo_single b c
    | cons d p3 => exact sfGo_single b ' '

/-- Core invariant of the normalizer: after the separator spacing pass and the
whitespace collapse, every double-slash separator is flanked by a single space
or a boundary, whatever whitespace is pending on either machine. -/
theorem sfGo_wsGo_ssGo : ∀ (N : Nat) (u : List Char) (s : Bool) (pend p0 : List Char)
    (b : Bool), u.length ≤ N →
    (∀ x ∈ pend, isWS x = true) → (∀ x ∈ p0, isWS x = true) →
    sfGo b (wsGo p0 (ssGo s pend u)) = true := by
  intro N
  induction N with
  | zero =>
    intro u s pend p0 b hl hpend hp0
    have hu : u = [] := List.length_eq_zero.mp (Nat.le_zero.mp hl)
    subst hu
    rw [ssGo_nil, wsGo_all_ws hpend p0]
    exact sfGo_emitWS b (p0 ++ pend)
  | succ N ih =>
    intro u s pend p0 b hl hpend hp0
    cases u with
    | nil =>
      rw [ssGo_nil, wsGo_all_ws hpend p0]
      exact sfGo_emitWS b (p0 ++ pend)
    | cons c rest =>
      by_cases hsep : c = '/' ∧ rest.head? = some '/'
      · rcases hsep with ⟨h1, h2⟩
        subst h1
        cases rest with
        | nil => exact absurd h2 (by simp)
        | cons c2 rest2 =>
          have hc2 : c2 = '/' := by
            rw [List.head?_cons] at h2
            injection h2
          subst hc2
          rw [ssGo_sep]
          rw [wsGo_ws p0 ' ' ('/' :: '/' :: ' ' :: ssGo true [] rest2) space_ws]
          rw [wsGo_nonws (p0 ++ [' ']) '/' ('/' :: ' ' :: ssGo true [] rest2) (by decide)]
          rw [emitWS_snoc_space p0]
          rw [wsGo_nonws [] '/' (' ' :: ssGo true [] rest2) (by decide), emitWS_nil,
            List.nil_append]
          rw [wsGo_ws [] ' ' (ssGo true [] rest2) space_ws, List.nil_append]
          rw [List.singleton_append]
          have hlen2 : rest2.length ≤ N := by
            simp only [List.length_cons] at hl
            omega
          have hS : sfGo false (wsGo [' '] (ssGo true [] rest2)) = true := by
            refine ih rest2 true [] [' '] false hlen2
              (fun x hx => absurd hx (List.not_mem_nil x)) ?_
            intro x hx
            have hxs : x = ' ' := by simpa using hx
            rw [hxs]
            exact space_ws
          have hhead := wsGo_space_head (ssGo true [] rest2) []
          cases hW : wsGo [' '] (ssGo true [] rest2) with
          | nil =>
            rw [hW] at hhead
            exact absurd hhead (by simp)
          | cons w0 t =>
            rw [hW] at hhead hS
            rw [List.head?_cons] at hhead
            have hw0 : w0 = ' ' := by injection hhead
            subst hw0
            rw [sfGo_other b ' ' '/' ('/' :: ' ' :: t)
              (fun hcon => absurd hcon.1 (by decide))]
            rw [show (decide (' ' = ' ')) = true from by decide]
            rw [sfGo_sep true (' ' :: t)]
            rw [hS]
            show (true && decide (' ' = ' ') && true) = true
            decide
      · have hlen : rest.length ≤ N := by
          simp only [List.length_cons] at hl
          omega
        rcases hc : isWS c
        · have hred : ssGo s pend (c :: rest) = pend ++ c :: ssGo false [] rest := by
            cases s with
            | false => exact ssGo_other false pend c rest hc hsep
            | true =>
              rw [ssGo_skip_eq pend c rest hc]
              exact ssGo_other false pend c rest hc hsep
          rw [hred]
          rw [wsGo_ws_append pend p0 (c :: ssGo false [] rest) hpend]
          rw [wsGo_nonws (p0 ++ pend) c (ssGo false [] rest) hc]
          have hW0 : ∀ b2 : Bool, sfGo b2 (wsGo [] (ssGo false [] rest)) = true := by
            intro b2
            exact ih rest false [] [] b2 hlen
              (fun x hx => absurd hx (List.not_mem_nil x))
              (fun x hx => absurd hx (List.not_mem_nil x))
          have hcw : ∀ b2 : Bool, sfGo b2 (c :: wsGo [] (ssGo false [] rest)) = true := by
            intro b2
            by_cases hcs : c = '/'
            · subst hcs
              have hrh : rest.head? ≠ some '/' := fun hh => hsep ⟨rfl, hh⟩
              have hWhead : ∀ d, (wsGo [] (ssGo false [] rest)).head? = some d →
                  ¬(d = '/') := by
                intro d hd
                refine wsGo_head_not_slash (ssGo false [] rest) []
                  (fun x hx => absurd hx (List.not_mem_nil x)) ?_ d hd
                intro _ hcon
                exact ssGo_false_head_not_slash rest []
                  (fun x hx => absurd hx (List.not_mem_nil x)) (fun _ => hrh) '/' hcon rfl
              cases hV : wsGo [] (ssGo false [] rest) with
              | nil => exact sfGo_single b2 '/'
              | cons w0 t =>
                have hw0 : ¬(w0 = '/') := hWhead w0 (by rw [hV, List.head?_cons])
                rw [sfGo_other b2 '/' w0 t (fun hcon => hw0 hcon.2)]
                rw [← hV]
                exact hW0 _
            · cases hV : wsGo [] (ssGo false [] rest) with
              | nil => exact sfGo_single b2 c
              | cons w0 t =>
                rw [sfGo_other b2 c w0 t (fun hcon => hcs hcon.1)]
                rw [← hV]
                exact hW0 _
          cases hE : emitWS (p0 ++ pend) with
          | nil =>
            rw [List.nil_append]
            exact hcw b
          | cons x e2 =>
            have hfull : ∀ z ∈ p0 ++ pend, isWS z = true := by
              intro z hz
              rcases List.mem_append.mp hz with hz2 | hz2
              · exact hp0 z hz2
              · exact hpend z hz2
            have hx : isWS x = true :=
              emitWS_ws hfull x (by rw [hE]; exact List.mem_cons_self _ _)
            have he2 : e2 = [] := by
              have hlenE := emitWS_len_le (p0 ++ pend)
              rw [hE] at hlenE
              simp only [List.length_cons] at hlenE
              exact List.length_eq_zero.mp (by omega)
            subst he2
            rw [List.singleton_append]
            rw [sfGo_other b x c (wsGo [] (ssGo false [] rest))
              (fun hcon => ws_ne_slash hx hcon.1)]
            exact hcw _
        · rw [ssGo_ws_cons s pend c rest hc]
          cases s with
          | false =>
            simp only [Bool.false_eq_true, if_false]
            refine ih rest false (pend ++ [c]) p0 b hlen ?_ hp0
            intro x hx
            rcases List.mem_append.mp hx with hx2 | hx2
            · exact hpend x hx2
            · have hxc : x = c := by simpa using hx2
              rw [hxc]
              exact hc
          | true =>
            simp only [if_true]
            exact ih rest true [] p0 b hlen
              (fun x hx => absurd hx (List.not_mem_nil x)) hp0

/-! The four structural facts delivered by one run of the normalizer. -/

theorem noTriple_normList (l : List Char) : noTriple (normList l) = true := by
  rw [normList]
  exact noTriple_trimBoth (noTriple_collapseWS (noTriple_spaceSlashes _))

theorem noDoubleWS_normList (l : List Char) : noDoubleWS (normList l) = true := by
  rw [normList]
  exact noDoubleWS_trimBoth (noDoubleWS_collapseWS _)

theorem sfGo_normList (l : List Char) : sfGo true (normList l) = true := by
  rw [normList, collapseWS, spaceSlashes]
  apply sfGo_trimBoth
  exact sfGo_wsGo_ssGo (collapseSlashes (trimBoth l)).length
    (collapseSlashes (trimBoth l)) false [] [] true (Nat.le_refl _)
    (fun x hx => absurd hx (List.not_mem_nil x))
    (fun x hx => absurd hx (List.not_mem_nil x))

/-! Small helpers for the second-pass computation. -/

theorem decide_and_false {a b : Char} (h : ¬(a = '/' ∧ b = '/')) :
    (decide (a = '/') && decide (b = '/')) = false := by
  by_cases ha : a = '/'
  · have hb : ¬(b = '/') := fun hb2 => h ⟨ha, hb2⟩
    rw [decide_eq_false hb, Bool.and_false]
  · rw [decide_eq_false ha, Bool.false_and]

theorem startsSep_false_of_not {e : Char} {r2 : List Char}
    (h : ¬(e = '/' ∧ r2.head? = some '/')) : startsSep (e :: r2) = false := by
  cases r2 with
  | nil => exact startsSep_single e
  | cons f r3 =>
    rw [startsSep_cons2]
    refine decide_and_false ?_
    intro hc
    exact h ⟨hc.1, by rw [hc.2, List.head?_cons]⟩

theorem endsSep_cons2_peel (x : Char) {w : List Char} (h : 2 ≤ w.length) :
    endsSep (x :: w) = endsSep w := by
  rw [show x :: w = [x] ++ w from rfl]
  exact endsSep_append2 h

theorem endsSep_cons_of_not {c e : Char} {r2 : List Char}
    (h : ¬(e = '/' ∧ c = '/')) : endsSep (c :: e :: r2) = endsSep (e :: r2) := by
  cases r2 with
  | nil =>
    rw [endsSep_two, show endsSep [e] = false from rfl]
    exact decide_and_false h
  | cons f r3 =>
    rw [show c :: e :: f :: r3 = [c] ++ (e :: f :: r3) from rfl]
    exact endsSep_append2 (by simp only [List.length_cons]; omega)

theorem endsSep_sep_space_cons (d : Char) (r4 : List Char) :
    endsSep ('/' :: '/' :: ' ' :: d :: r4) = endsSep (d :: r4) := by
  rw [endsSep_cons2_peel '/' (by simp only [List.length_cons]; omega)]
  rw [endsSep_cons2_peel '/' (by simp only [List.length_cons]; omega)]
  exact endsSep_cons_of_not (fun hx => absurd hx.2 (by decide))

theorem ssGo_single_eq (c : Char) : ssGo false [] [c] = [c] := by
  rcases hc : isWS c
  · rw [ssGo_other false [] c [] hc (by simp), List.nil_append, ssGo_nil]
  · rw [ssGo_ws_cons false [] c [] hc]
    simp only [Bool.false_eq_true, if_false]
    rw [List.nil_append, ssGo_nil]

theorem wsGo_single_eq (c : Char) : wsGo [] [c] = [c] := by
  rcases hc : isWS c
  · rw [wsGo_nonws [] c [] hc, emitWS_nil, List.nil_append, wsGo_nil, emitWS_nil]
  · rw [wsGo_ws [] c [] hc, List.nil_append, wsGo_nil, emitWS_single]

/-- Second-pass shape: on a list that is triple-free, has no doubled
whitespace, and whose separators are correctly flanked, the separator spacing
pass followed by the whitespace collapse only pads a leading or trailing
double-slash with one space. -/
theorem wsGo_ssGo_normalized : ∀ (N : Nat) (z : List Char), z.length ≤ N →
    noTriple z = true → noDoubleWS z = true → sfGo true z = true →
    wsGo [] (ssGo false [] z) =
      (if startsSep z = true then [' '] else []) ++ z ++
        (if endsSep z = true then [' '] else []) := by
  intro N
  induction N with
  | zero =>
    intro z hl _ _ _
    have hz : z = [] := List.length_eq_zero.mp (Nat.le_zero.mp hl)
    subst hz
    rfl
  | succ N ih =>
    intro z hl hnt hnd hsf
    cases z with
    | nil => rfl
    | cons c r =>
      cases r with
      | nil =>
        rw [ssGo_single_eq, wsGo_single_eq, startsSep_single,
          show endsSep [c] = false from rfl]
        simp
      | cons e r2 =>
        by_cases hsep : c = '/' ∧ e = '/'
        · rcases hsep with ⟨hc1, he1⟩
          subst hc1
          subst he1
          rw [sfGo_sep] at hsf
          rcases Bool.and_eq_true_iff.mp hsf with ⟨h1, hS⟩
          rcases Bool.and_eq_true_iff.mp h1 with ⟨_, hM⟩
          cases r2 with
          | nil => decide
          | cons c3 r3 =>
            have hc3 : c3 = ' ' := of_decide_eq_true hM
            subst hc3
            cases r3 with
            | nil => decide
            | cons d r4 =>
              have hd : isWS d = false := by
                have hnd2 : noDoubleWS (' ' :: d :: r4) = true :=
                  noDoubleWS_tail (noDoubleWS_tail hnd)
                exact noDoubleWS_pair hnd2 space_ws
              have hsfr : sfGo true (d :: r4) = true := by
                rw [sfGo_other false ' ' d r4 (fun hx => absurd hx.1 (by decide))] at hS
                rw [show (decide (' ' = ' ')) = true from by decide] at hS
                exact hS
              have hlenr : (d :: r4).length ≤ N := by
                simp only [List.length_cons] at hl ⊢
                omega
              have hntr : noTriple (d :: r4) = true :=
                noTriple_tail (noTriple_tail (noTriple_tail hnt))
              have hndr : noDoubleWS (d :: r4) = true :=
                noDoubleWS_tail (noDoubleWS_tail (noDoubleWS_tail hnd))
              have hIH := ih (d :: r4) hlenr hntr hndr hsfr
              rw [ssGo_sep]
              rw [ssGo_ws_cons true [] ' ' (d :: r4) space_ws]
              simp only [if_true]
              rw [ssGo_skip_eq [] d r4 hd]
              rw [wsGo_ws [] ' ' ('/' :: '/' :: ' ' :: ssGo false [] (d :: r4)) space_ws,
                List.nil_append]
              rw [wsGo_nonws [' '] '/' ('/' :: ' ' :: ssGo false [] (d :: r4)) (by decide),
                emitWS_single, List.singleton_append]
              rw [wsGo_nonws [] '/' (' ' :: ssGo false [] (d :: r4)) (by decide),
                emitWS_nil, List.nil_append]
              rw [wsGo_ws [] ' ' (ssGo false [] (d :: r4)) space_ws, List.nil_append]
              rw [show startsSep ('/' :: '/' :: ' ' :: d :: r4) = true from by
                rw [startsSep_cons2]; decide]
              rw [if_pos rfl]
              rw [endsSep_sep_space_cons d r4]
              by_cases hss : d = '/' ∧ r4.head? = some '/'
              · rcases hss with ⟨hd2, hh⟩
                subst hd2
                cases r4 with
                | nil => exact absurd hh (by simp)
                | cons f r5 =>
                  have hf : f = '/' := by
                    rw [List.head?_cons] at hh
                    injection hh
                  subst hf
                  rw [ssGo_sep]
                  rw [wsGo_ws [' '] ' ' ('/' :: '/' :: ' ' :: ssGo true [] r5) space_ws]
                  rw [show ([' '] : List Char) ++ [' '] = [' ', ' '] from rfl]
                  rw [wsGo_two_space ('/' :: '/' :: ' ' :: ssGo true [] r5) []]
                  rw [ssGo_sep] at hIH
                  rw [wsGo_ws [] ' ' ('/' :: '/' :: ' ' :: ssGo true [] r5) space_ws,
                    List.nil_append] at hIH
                  have hst5 : startsSep ('/' :: '/' :: r5) = true := by
                    rw [startsSep_cons2]
                    decide
                  rw [hst5, if_pos rfl] at hIH
                  rw [hIH]
                  simp only [List.cons_append, List.singleton_append, List.append_assoc,
                    List.nil_append]
              · rw [ssGo_other false [] d r4 hd hss, List.nil_append]
                rw [wsGo_nonws [' '] d (ssGo false [] r4) hd, emitWS_single,
                  List.singleton_append]
                rw [ssGo_other false [] d r4 hd hss, List.nil_append,
                  wsGo_nonws [] d (ssGo false [] r4) hd, emitWS_nil,
                  List.nil_append] at hIH
                rw [startsSep_false_of_not hss, if_neg Bool.false_ne_true,
                  List.nil_append] at hIH
                rw [hIH]
                simp only [List.cons_append, List.singleton_append, List.append_assoc,
                  List.nil_append]
        · have hseph : ¬(c = '/' ∧ (e :: r2).head? = some '/') := by
            intro hx
            rcases hx with ⟨hx1, hx2⟩
            rw [List.head?_cons] at hx2
            have hx3 : e = '/' := by injection hx2
            exact hsep ⟨hx1, hx3⟩
          have hstz : startsSep (c :: e :: r2) = false := by
            rw [startsSep_cons2]
            exact decide_and_false hsep
          have hlenr : (e :: r2).length ≤ N := by
            simp only [List.length_cons] at hl ⊢
            omega
          rcases hc : isWS c
          · rw [sfGo_other true c e r2 hsep] at hsf
            rw [decide_eq_false (ws_ne_space_ne hc)] at hsf
            have hssr : startsSep (e :: r2) = false := by
              cases r2 with
              | nil => exact startsSep_single e
              | cons f r3 =>
                rw [startsSep_cons2]
                by_cases hef : e = '/' ∧ f = '/'
                · rcases hef with ⟨he2, hf2⟩
                  subst he2
                  subst hf2
                  rw [sfGo_sep] at hsf
                  simp at hsf
                · exact decide_and_false hef
            have hIH := ih (e :: r2) hlenr (noTriple_tail hnt) (noDoubleWS_tail hnd)
              (sfGo_mono hsf)
            rw [hssr, if_neg Bool.false_ne_true, List.nil_append] at hIH
            rw [ssGo_other false [] c (e :: r2) hc hseph, List.nil_append]
            rw [wsGo_nonws [] c (ssGo false [] (e :: r2)) hc, emitWS_nil, List.nil_append]
            rw [hIH]
            rw [hstz, if_neg Bool.false_ne_true, List.nil_append]
            rw [endsSep_cons_of_not (fun hx => hsep ⟨hx.2, hx.1⟩)]
            simp only [List.cons_append]
          · have he : isWS e = false := noDoubleWS_pair hnd hc
            by_cases hsep2 : e = '/' ∧ r2.head? = some '/'
            · rcases hsep2 with ⟨he2, hh2⟩
              subst he2
              cases r2 with
              | nil => exact absurd hh2 (by simp)
              | cons f r3 =>
                have hf : f = '/' := by
                  rw [List.head?_cons] at hh2
                  injection hh2
                subst hf
                rw [sfGo_other true c '/' ('/' :: r3) hsep] at hsf
                rw [sfGo_sep] at hsf
                rcases Bool.and_eq_true_iff.mp hsf with ⟨h1, hS3⟩
                rcases Bool.and_eq_true_iff.mp h1 with ⟨hcd, hM3⟩
                have hcsp : c = ' ' := of_decide_eq_true hcd
                subst hcsp
                have hsfr : sfGo true ('/' :: '/' :: r3) = true := by
                  rw [sfGo_sep, hM3, hS3]
                  rfl
                have hIH := ih ('/' :: '/' :: r3) hlenr (noTriple_tail hnt)
                  (noDoubleWS_tail hnd) hsfr
                rw [ssGo_ws_cons false [] ' ' ('/' :: '/' :: r3) space_ws]
                simp only [Bool.false_eq_true, if_false]
                rw [List.nil_append]
                rw [ssGo_sep]
                rw [ssGo_sep] at hIH
                rw [hIH]
                have hst3 : startsSep ('/' :: '/' :: r3) = true := by
                  rw [startsSep_cons2]
                  decide
                rw [hst3, if_pos rfl]
                rw [hstz, if_neg Bool.false_ne_true, List.nil_append]
                rw [endsSep_cons2_peel ' ' (by simp only [List.length_cons]; omega)]
                simp only [List.cons_append, List.singleton_append, List.append_assoc,
                  List.nil_append]
            · rw [sfGo_other true c e r2 hsep] at hsf
              have hsftr : sfGo true (e :: r2) = true := by
                by_cases hcc : c = ' '
                · rw [hcc, show decide (' ' = ' ') = true from by decide] at hsf
                  exact hsf
                · rw [decide_eq_false hcc] at hsf
                  exact sfGo_mono hsf
              have hssr : startsSep (e :: r2) = false := startsSep_false_of_not hsep2
              have hIH := ih (e :: r2) hlenr (noTriple_tail hnt) (noDoubleWS_tail hnd)
                hsftr
              rw [hssr, if_neg Bool.false_ne_true, List.nil_append] at hIH
              rw [ssGo_other false [] e r2 he hsep2, List.nil_append,
                wsGo_nonws [] e (ssGo false [] r2) he, emitWS_nil,
                List.nil_append] at hIH
              rw [ssGo_ws_cons false [] c (e :: r2) hc]
              simp only [Bool.false_eq_true, if_false]
              rw [List.nil_append]
              rw [ssGo_other false [c] e r2 he hsep2, List.singleton_append]
              rw [wsGo_ws [] c (e :: ssGo false [] r2) hc, List.nil_append]
              rw [wsGo_nonws [c] e (ssGo false [] r2) he, emitWS_single,
                List.singleton_append]
              rw [hIH]
              rw [hstz, if_neg Bool.false_ne_true, List.nil_append]
              rw [endsSep_cons_of_not (fun hx => hsep ⟨hx.2, hx.1⟩)]
              simp only [List.cons_append]

/-- The full normalization pipeline is idempotent on character lists. -/
theorem normList_idem (l : List Char) : normList (normList l) = normList l := by
  have h1 : noLeadWS (normList l) = true := by
    rw [normList]
    exact noLeadWS_trimBoth _
  have h2 : noTrailWS (normList l) = true := by
    rw [normList]
    exact noTrailWS_trimBoth _
  have h3 : noTriple (normList l) = true := noTriple_normList l
  have h4 : noDoubleWS (normList l) = true := noDoubleWS_normList l
  have h5 : sfGo true (normList l) = true := sfGo_normList l
  conv_lhs => rw [normList]
  rw [trimBoth_eq_self h1 h2]
  rw [collapseSlashes_eq_self h3]
  rw [show spaceSlashes (normList l) = ssGo false [] (normList l) from rfl]
  rw [show collapseWS (ssGo false [] (normList l)) =
    wsGo [] (ssGo false [] (normList l)) from rfl]
  rw [wsGo_ssGo_normalized (normList l).length (normList l) (Nat.le_refl _) h3 h4 h5]
  by_cases hnil : normList l = []
  · rw [hnil]
    rfl
  · refine trim_pad h1 h2 hnil ?_ ?_
    · intro x hx
      by_cases hs : startsSep (normList l) = true
      · rw [if_pos hs] at hx
        have hxs : x = ' ' := by simpa using hx
        rw [hxs]
        exact space_ws
      · rw [if_neg hs] at hx
        exact absurd hx (List.not_mem_nil x)
    · intro x hx
      by_cases hs : endsSep (normList l) = true
      · rw [if_pos hs] at hx
        have hxs : x = ' ' := by simpa using hx
        rw [hxs]
        exact space_ws
      · rw [if_neg hs] at hx
        exact absurd hx (List.not_mem_nil x)

/-- C9: the name normalizer of the source (trim, collapse runs of three or
more slashes to two, put one space on each side of every double-slash
separator, collapse whitespace runs, trim again, with empty input returned
unchanged) is idempotent: normalizing twice gives the same string as
normalizing once. -/
theorem C9_normalizeName_idempotent (s : String) :
    normalizeName (normalizeName s) = normalizeName s := by
  by_cases hs : s == ""
  · have h1 : normalizeName s = s := by rw [normalizeName, if_pos hs]
    rw [h1, h1]
  · have h1 : normalizeName s = String.mk (normList s.data) := by
      rw [normalizeName, if_neg hs]
    rw [h1]
    by_cases h2 : String.mk (normList s.data) == ""
    · rw [normalizeName, if_pos h2]
    · rw [normalizeName, if_neg h2]
      rw [show (String.mk (normList s.data)).data = normList s.data from rfl]
      rw [normList_idem]

end MDD
